import Mathlib

/-!
Verification development for the nbhttp HTTP/SPDY toolkit.

We shallowly embed the parsing and serialisation layers of the source
(`common.py`, `client.py`, `server.py`, `spdy_common.py`) as executable
Lean functions over `List Char` (byte strings) and prove the frozen
claims about them.  Python semantics (whitespace sets, `str.strip`,
`int(s, base)`, `str.splitlines`, the regexes `\r?\n\r?\n` and
`\r?\n[ \t]+`) are modelled faithfully below.
-/

namespace Nbhttp

/-- Byte strings of the Python 2 source are modelled as lists of chars. -/
abbrev Str := List Char

/-- Python 2 `str.isspace` character set, used by `str.strip` and `int()`. -/
def pySpace (c : Char) : Bool :=
  c = ' ' || c = '\t' || c = '\n' || c = '\r' || c = '\x0b' || c = '\x0c'

/-- Python `s.strip()` (strip whitespace from both ends). -/
def pyStrip (s : Str) : Str :=
  ((s.dropWhile pySpace).reverse.dropWhile pySpace).reverse

/-- Python `s.lower()` (ASCII lowercasing on byte strings). -/
def pyLower (s : Str) : Str := s.map Char.toLower

/-- Split at the first occurrence of separator `sep` (Python
`s.split(sep, 1)` when it yields two parts); `none` when `sep` does not
occur (where the source unpacks the result, Python raises `ValueError`). -/
def splitFirst (sep : Str) (s : Str) : Option (Str × Str) :=
  match s with
  | [] => if sep = [] then some ([], []) else none
  | c :: t =>
    if sep.isPrefixOf s then some ([], s.drop sep.length)
    else match splitFirst sep t with
         | some (a, b) => some (c :: a, b)
         | none => none

theorem dropWhile_len_le (p : Char → Bool) (l : Str) :
    (l.dropWhile p).length ≤ l.length := by
  induction l with
  | nil => simp [List.dropWhile]
  | cons c t ih =>
    rw [List.dropWhile]
    cases p c <;> simp <;> omega

theorem splitFirst_length {sep s a b : Str} (hsep : sep ≠ [])
    (h : splitFirst sep s = some (a, b)) :
    a.length + sep.length + b.length = s.length := by
  induction s generalizing a with
  | nil => simp [splitFirst, hsep] at h
  | cons c t ih =>
    rw [splitFirst] at h
    by_cases hp : sep.isPrefixOf (c :: t)
    · simp only [hp, if_pos] at h
      obtain ⟨ha, hb⟩ := Prod.mk.injEq .. ▸ Option.some.injEq .. ▸ h
      subst ha hb
      have hle : sep.length ≤ (c :: t).length :=
        (List.isPrefixOf_iff_prefix.mp hp).length_le
      simp only [List.length_drop, List.length_nil]
      omega
    · simp only [hp, if_neg, if_false] at h
      cases hsf : splitFirst sep t with
      | none => rw [hsf] at h; exact absurd h (by simp)
      | some p =>
        obtain ⟨a0, b0⟩ := p
        rw [hsf] at h
        obtain ⟨ha, hb⟩ := Prod.mk.injEq .. ▸ Option.some.injEq .. ▸ h
        subst hb
        have := ih hsf
        subst ha
        simp at this ⊢
        omega

/-- Python `s.split(sep)` for a one-character separator (`''.split(',')`
gives `['']`). -/
def splitAllChar (sep : Char) : Str → List Str
  | [] => [[]]
  | c :: t =>
    if c = sep then [] :: splitAllChar sep t
    else match splitAllChar sep t with
         | h :: r => (c :: h) :: r
         | [] => [[c]]

/-- Python 2 `str.splitlines()`: line boundaries are `\n`, `\r`, `\r\n`;
no trailing empty line for a terminal newline. -/
def splitlinesGo (cur : Str) : Str → List Str
  | [] => if cur = [] then [] else [cur.reverse]
  | '\r' :: '\n' :: t => cur.reverse :: splitlinesGo [] t
  | '\r' :: t => cur.reverse :: splitlinesGo [] t
  | '\n' :: t => cur.reverse :: splitlinesGo [] t
  | c :: t => splitlinesGo (c :: cur) t

/-- `str.splitlines`, with the wrinkle that a wholly empty input yields no
lines while a terminal newline yields no trailing empty line. -/
def splitlines (s : Str) : List Str := splitlinesGo [] s

/-- Linear-whitespace characters of the `lws` regex class `[ \t]`. -/
def lwsChar (c : Char) : Bool := c = ' ' || c = '\t'

/-- Scanner for `lws.sub(" ", s)`: when `skipping` the head of the input
is inside the `[ \t]+` run of a match just replaced.  Structural on a
fuel argument (one unit per emitted or skipped character, so
`s.length + 1` always suffices; on exhaustion — unreachable from
`lwsSub` — the remaining input is returned unchanged). -/
def lwsSubF : Nat → Bool → Str → Str
  | 0, _, s => s
  | fuel + 1, skipping, s =>
    match s with
    | [] => []
    | '\r' :: '\n' :: c2 :: t2 =>
      if lwsChar c2 then ' ' :: lwsSubF fuel true t2
      else '\r' :: lwsSubF fuel false ('\n' :: c2 :: t2)
    | '\n' :: c2 :: t2 =>
      if lwsChar c2 then ' ' :: lwsSubF fuel true t2
      else '\n' :: lwsSubF fuel false (c2 :: t2)
    | c :: t =>
      if skipping && lwsChar c then lwsSubF fuel true t
      else c :: lwsSubF fuel false t

/-- `lws.sub(" ", s)` for `lws = re.compile("\r?\n[ \t]+")`: replace each
leftmost non-overlapping match (a newline followed by a maximal run of
spaces/tabs) by a single space. -/
def lwsSub (s : Str) : Str := lwsSubF (s.length + 1) false s

/-- One match attempt of `hdr_end = re.compile(r"\r?\n\r?\n")` anchored at
the head of the string, returning the greedily-matched length.  The
decision depends only on the first four characters. -/
def hdrEndAt (s : Str) : Option Nat :=
  match s.take 4 with
  | '\r' :: '\n' :: '\r' :: '\n' :: _ => some 4
  | '\r' :: '\n' :: '\n' :: _ => some 3
  | '\n' :: '\r' :: '\n' :: _ => some 3
  | '\n' :: '\n' :: _ => some 2
  | _ => none

/-- `hdr_end.search(s)`: position and length of the leftmost match. -/
def hdrEndSearch : Str → Option (Nat × Nat)
  | [] => none
  | c :: t =>
    match hdrEndAt (c :: t) with
    | some l => some (0, l)
    | none =>
      match hdrEndSearch t with
      | some (i, l) => some (i + 1, l)
      | none => none

/-- `hdr_end.split(s, 1)`: the text before and after the leftmost match.
Only called by the source after a successful `search`; returns `(s, [])`
when there is no match. -/
def hdrEndSplit (s : Str) : Str × Str :=
  match hdrEndSearch s with
  | some (i, l) => (s.take i, s.drop (i + l))
  | none => (s, [])

/-- Value of a digit character in the given base, per Python `int(s, b)`. -/
def digitVal (base : Nat) (c : Char) : Option Nat :=
  let v : Option Nat :=
    if '0' ≤ c ∧ c ≤ '9' then some (c.toNat - '0'.toNat)
    else if 'a' ≤ c ∧ c ≤ 'f' then some (c.toNat - 'a'.toNat + 10)
    else if 'A' ≤ c ∧ c ≤ 'F' then some (c.toNat - 'A'.toNat + 10)
    else none
  match v with
  | some n => if n < base then some n else none
  | none => none

/-- Digit-string accumulation for `int(s, base)`; fails on empty input or
any non-digit. -/
def digitsVal (base : Nat) : Str → Option Nat
  | [] => none
  | [c] => digitVal base c
  | c :: t =>
    match digitVal base c, digitsVal base t with
    | some d, some r => some (d * base ^ t.length + r)
    | _, _ => none

/-- Python 2 `int(s, base)` for bases 10 and 16: optional surrounding
whitespace, optional single sign, for base 16 an optional `0x`/`0X`
prefix, then one or more digits; anything else raises `ValueError`
(modelled as `none`). -/
def pyInt (base : Nat) (s : Str) : Option Int :=
  let t := pyStrip s
  let (neg, t) : Bool × Str :=
    match t with
    | '+' :: r => (false, r)
    | '-' :: r => (true, r)
    | r => (false, r)
  let t : Str :=
    if base = 16 then
      match t with
      | '0' :: 'x' :: r => r
      | '0' :: 'X' :: r => r
      | r => r
    else t
  match digitsVal base t with
  | some n => some (if neg then -(n : Int) else (n : Int))
  | none => none

/-! ## Constants of `common.py` -/

/-- `idempotent_methods` from `common.py`. -/
def idempotentMethods : List Str :=
  ["GET".toList, "HEAD".toList, "PUT".toList, "DELETE".toList,
   "OPTIONS".toList, "TRACE".toList]

/-- `no_body_status` from `common.py`. -/
def noBodyStatus : List Str :=
  ["100".toList, "101".toList, "204".toList, "304".toList]

/-- `hop_by_hop_hdrs` from `common.py`. -/
def hopByHopHdrs : List Str :=
  ["connection".toList, "keep-alive".toList, "proxy-authenticate".toList,
   "proxy-authorization".toList, "te".toList, "trailers".toList,
   "transfer-encoding".toList, "upgrade".toList]

/-! ## The `HttpMessageParser` state machine of `common.py` -/

/-- Body-delimitation modes (`CLOSE, COUNTED, CHUNKED, NONE`); `dINIT`
models the initial Python `None`. -/
inductive Delim | dINIT | dCLOSE | dCOUNTED | dCHUNKED | dNONE
deriving DecidableEq, Repr

/-- Parser input states (`WAITING, HEADERS_DONE`). -/
inductive IState | waiting | headersDone
deriving DecidableEq, Repr

/-- The mutable fields of `HttpMessageParser`: `_input_buffer`,
`_input_state`, `_input_delimit`, `_input_body_left`. -/
structure PState where
  buf : Str := []
  ist : IState := .waiting
  delim : Delim := .dINIT
  bodyLeft : Int := 0
deriving DecidableEq, Repr

/-- The fresh parser state built by `HttpMessageParser.__init__`. -/
def initPState : PState := {}

/-- Error kinds raised by the parser.  Modelled from the spec: the error
dictionaries `ERR_EXTRA_DATA` and `ERR_CHUNK` live in the repository's
`error` module, which is not among the provided sources; the spec's error
taxonomy (§7) names the kinds EXTRA_DATA and CHUNK, which is all the
parser code uses them for. -/
inductive EKind | extraData | chunk
deriving DecidableEq, Repr

/-- Observable parser callbacks: `_input_start` (with the values passed
and the `allows_body` it returned, `none` when it raised `ValueError`),
`_input_body`, `_input_end`, `_input_error`. -/
inductive Ev where
  | start (topLine : Str) (tuples : List (Str × Str))
      (conn transfer : List Str) (cl : Option Int) (allows : Option Bool)
  | body (chunkData : Str)
  | endOk
  | err (kind : EKind) (detail : Str)
deriving DecidableEq, Repr

/-- The `_input_start` hook supplied by a subclass: it receives
`(top_line, hdr_tuples, conn_tokens, transfer_codes, content_length)` and
returns `allows_body`, or `none` to model raising `ValueError`. -/
abbrev IStart :=
  Str → List (Str × Str) → List Str → List Str → Option Int → Option Bool

/-- The header-line loop of `_parse_headers`: returns
`(hdr_tuples, conn_tokens, transfer_codes, content_length)`.  Lines
without a `:` are discarded; `Connection` and `Transfer-Encoding` values
are comma-split, stripped and lowercased; only the first parseable
`Content-Length` is kept and unparseable ones are skipped. -/
def procHeaders : List Str → List (Str × Str) × List Str × List Str × Option Int
  | [] => ([], [], [], none)
  | line :: rest =>
    let (tu, co, tr, cl) := procHeaders rest
    match splitFirst (":".toList) line with
    | none => (tu, co, tr, cl)
    | some (fn, fv) =>
      let fname := pyLower (pyStrip fn)
      let fval := pyStrip fv
      if fname = "connection".toList then
        ((fn, fv) :: tu,
         (splitAllChar ',' fval).map (fun v => pyLower (pyStrip v)) ++ co, tr, cl)
      else if fname = "transfer-encoding".toList then
        ((fn, fv) :: tu, co,
         (splitAllChar ',' fval).map (fun v => pyLower (pyStrip v)) ++ tr, cl)
      else if fname = "content-length".toList then
        match pyInt 10 fval with
        | some n => ((fn, fv) :: tu, co, tr, some n)
        | none => ((fn, fv) :: tu, co, tr, cl)
      else ((fn, fv) :: tu, co, tr, cl)

/-- `HttpMessageParser._parse_headers`, applied to the text *before* the
`hdr_end` match (the caller splits).  Returns the updated state, whether
the remainder of the input should be processed (`false` models the
`return ""` paths: empty header block, or `ValueError` from
`_input_start`), and the emitted events. -/
def parseHeaders (istart : IStart) (s : PState) (top : Str) :
    PState × Bool × List Ev :=
  match splitlines (lwsSub top) with
  | [] => (s, false, [])
  | topLine :: hlines =>
    let (tuples, conn, transfer, cl0) := procHeaders hlines
    let cl : Option Int := if transfer ≠ [] then none else cl0
    match istart topLine tuples conn transfer cl with
    | none => (s, false, [Ev.start topLine tuples conn transfer cl none])
    | some allows =>
      let s1 : PState :=
        if !allows then { s with ist := .headersDone, delim := .dNONE }
        else if transfer ≠ [] then
          if "chunked".toList ∈ transfer then
            { s with ist := .headersDone, delim := .dCHUNKED, bodyLeft := -1 }
          else { s with ist := .headersDone, delim := .dCLOSE }
        else
          match cl with
          | some n => { s with ist := .headersDone, delim := .dCOUNTED, bodyLeft := n }
          | none =>
            if "close".toList ∈ conn then { s with ist := .headersDone, delim := .dCLOSE }
            else { s with ist := .headersDone, delim := .dNONE }
      (s1, true, [Ev.start topLine tuples conn transfer cl (some allows)])

theorem hdrEndAt_bounds {s : Str} {l : Nat} (h : hdrEndAt s = some l) :
    2 ≤ l ∧ l ≤ s.length := by
  unfold hdrEndAt at h
  split at h
  all_goals
    first
      | (rename_i heq
         have hl := congrArg List.length heq
         simp only [List.length_take, List.length_cons] at hl
         simp only [Option.some.injEq] at h
         omega)
      | simp at h

theorem hdrEndSearch_bounds {s : Str} {i l : Nat}
    (h : hdrEndSearch s = some (i, l)) : 2 ≤ l ∧ i + l ≤ s.length := by
  induction s generalizing i with
  | nil => simp [hdrEndSearch] at h
  | cons c t ih =>
    rw [hdrEndSearch] at h
    cases hat : hdrEndAt (c :: t) with
    | some l0 =>
      rw [hat] at h
      simp only [Option.some.injEq, Prod.mk.injEq] at h
      obtain ⟨hi, hl⟩ := h
      subst hi hl
      have := hdrEndAt_bounds hat
      omega
    | none =>
      rw [hat] at h
      cases hs : hdrEndSearch t with
      | none => rw [hs] at h; exact absurd h (by simp)
      | some p =>
        obtain ⟨i0, l0⟩ := p
        rw [hs] at h
        simp only [Option.some.injEq, Prod.mk.injEq] at h
        obtain ⟨hi, hl⟩ := h
        subst hi hl
        have := ih hs
        simp only [List.length_cons]
        omega

/-- One dispatch step of `HttpMessageParser._handle_input` (the body of
the recursion, entered with the pending buffer already merged into
`instr`); `rec` stands for the recursive `self._handle_input(...)`
calls. -/
def hicStep (istart : IStart) (rec : PState → Str → PState × List Ev)
    (s : PState) (instr : Str) : PState × List Ev :=
  match s.ist with
  | .waiting =>
    match hdrEndSearch instr with
    | some (i, l) =>
      match parseHeaders istart s (instr.take i) with
      | (s1, keep, evs) =>
        let rest := if keep then instr.drop (i + l) else []
        match rec s1 rest with
        | (s2, evs2) => (s2, evs ++ evs2)
    | none => ({ s with buf := instr }, [])
  | .headersDone =>
    match s.delim with
    | .dNONE =>
      if instr ≠ [] then ({ s with ist := .waiting }, [Ev.err .extraData instr])
      else ({ s with ist := .waiting }, [Ev.endOk])
    | .dCLOSE => (s, [Ev.body instr])
    | .dCHUNKED =>
      if 0 < s.bodyLeft then
        if s.bodyLeft < instr.length then
          let tc := s.bodyLeft.toNat
          match rec { s with bodyLeft := -1 } (instr.drop (tc + 2)) with
          | (s2, evs2) => (s2, Ev.body (instr.take tc) :: evs2)
        else if s.bodyLeft = instr.length then
          ({ s with bodyLeft := -1 }, [Ev.body instr])
        else
          ({ s with bodyLeft := s.bodyLeft - instr.length }, [Ev.body instr])
      else if s.bodyLeft = 0 then
        if 2 ≤ instr.length ∧ instr.take 2 = "\r\n".toList then
          match rec { s with ist := .waiting } (instr.drop 2) with
          | (s2, evs2) => (s2, Ev.endOk :: evs2)
        else
          match hdrEndSearch instr with
          | some (i, l) =>
            -- trailers are split off and discarded
            match rec { s with ist := .waiting } (instr.drop (i + l)) with
            | (s2, evs2) => (s2, Ev.endOk :: evs2)
          | none => ({ s with buf := instr }, [])
      else
        match splitFirst ("\r\n".toList) instr with
        | none => ({ s with buf := s.buf ++ instr }, [])
        | some (szRaw, rest) =>
          if pyStrip szRaw = [] then rec s rest
          else
            let sz := match splitFirst (";".toList) szRaw with
                      | some (a, _) => a
                      | none => szRaw
            match pyInt 16 sz with
            | none => (s, [Ev.err .chunk sz])
            | some n => rec { s with bodyLeft := n } rest
    | .dCOUNTED =>
      -- the Python code asserts `body_left >= 0` here; a negative value
      -- would raise, which we model as a stuck (unchanged) state
      if s.bodyLeft < 0 then (s, [])
      else if s.bodyLeft ≤ instr.length then
        let bl := s.bodyLeft.toNat
        if instr.drop bl ≠ [] then
          ({ s with ist := .waiting },
           [Ev.body (instr.take bl), Ev.err .extraData (instr.drop bl)])
        else ({ s with ist := .waiting }, [Ev.body (instr.take bl), Ev.endOk])
      else ({ s with bodyLeft := s.bodyLeft - instr.length }, [Ev.body instr])
    | .dINIT => (s, [])

/-- The recursion of `_handle_input`, made structural with a fuel
argument (one unit per recursive call; every call strictly shrinks the
input, so `instr.length + 1` units always suffice, as
`hicF_congr` proves). -/
def hicF (istart : IStart) : Nat → PState → Str → PState × List Ev
  | 0 => fun s _ => (s, [])
  | fuel + 1 => hicStep istart (hicF istart fuel)

/-- `_handle_input` on buffer-merged input, with adequate fuel. -/
def hic (istart : IStart) (s : PState) (instr : Str) : PState × List Ev :=
  hicF istart (instr.length + 1) s instr

theorem hicStep_congr (istart : IStart) (r1 r2 : PState → Str → PState × List Ev)
    (s : PState) (instr : Str)
    (h : ∀ s1 rest, rest.length < instr.length → r1 s1 rest = r2 s1 rest) :
    hicStep istart r1 s instr = hicStep istart r2 s instr := by
  obtain ⟨b, ist, d, bl⟩ := s
  unfold hicStep
  cases ist with
  | waiting =>
    simp only
    cases hse : hdrEndSearch instr with
    | none => rfl
    | some p =>
      obtain ⟨i, l⟩ := p
      have hb := hdrEndSearch_bounds hse
      have hrw : ∀ s1 (keep : Bool),
          r1 s1 (if keep then instr.drop (i + l) else []) =
          r2 s1 (if keep then instr.drop (i + l) else []) := by
        intro s1 keep
        apply h
        cases keep <;>
          simp only [List.length_drop, List.length_nil, if_true, if_false,
            Bool.false_eq_true, ite_false, ite_true] <;> omega
      simp only [hrw]
  | headersDone =>
    simp only
    cases d with
    | dNONE => rfl
    | dCLOSE => rfl
    | dINIT => rfl
    | dCOUNTED => rfl
    | dCHUNKED =>
      simp only
      by_cases hpos : 0 < bl
      · simp only [hpos, if_true]
        by_cases hlt : bl < instr.length
        · have hx := h ⟨b, .headersDone, .dCHUNKED, -1⟩ (instr.drop (bl.toNat + 2))
            (by simp only [List.length_drop]; omega)
          simp only [hlt, if_true, hx]
        · simp only [hlt, if_false]
      · simp only [hpos, if_false]
        by_cases hz : bl = 0
        · subst hz
          simp only [if_true]
          by_cases h2 : 2 ≤ instr.length ∧ instr.take 2 = "\r\n".toList
          · rw [if_pos h2, if_pos h2]
            have hx := h ⟨b, .waiting, .dCHUNKED, 0⟩ (instr.drop 2)
              (by simp only [List.length_drop]; omega)
            rw [hx]
          · rw [if_neg h2, if_neg h2]
            cases hse : hdrEndSearch instr with
            | none => rfl
            | some p =>
              obtain ⟨i, l⟩ := p
              have hb := hdrEndSearch_bounds hse
              have hx := h ⟨b, .waiting, .dCHUNKED, 0⟩ (instr.drop (i + l))
                (by simp only [List.length_drop]; omega)
              simp only [hx]
        · simp only [hz, if_false]
          cases hsf : splitFirst ("\r\n".toList) instr with
          | none => rfl
          | some p =>
            obtain ⟨szRaw, rest⟩ := p
            have hlen := splitFirst_length (by simp) hsf
            have hsl : (("\r\n".toList : Str)).length = 2 := rfl
            have hlt : rest.length < instr.length := by omega
            by_cases hbare : pyStrip szRaw = []
            · simp only [hbare, if_true, h ⟨b, .headersDone, .dCHUNKED, bl⟩ rest hlt]
            · simp only [hbare, if_false]
              cases pyInt 16 (match splitFirst (";".toList) szRaw with
                              | some (a, _) => a
                              | none => szRaw) with
              | none => rfl
              | some n => exact h ⟨b, .headersDone, .dCHUNKED, n⟩ rest hlt

theorem hicF_congr (istart : IStart) :
    ∀ (fuel : Nat) (s : PState) (instr : Str), instr.length < fuel →
      hicF istart fuel s instr = hic istart s instr := by
  intro fuel
  induction fuel using Nat.strong_induction_on with
  | _ fuel ih =>
    intro s instr hlen
    match fuel, hlen with
    | fuel + 1, hlen =>
      show hicStep istart (hicF istart fuel) s instr = hicF istart (instr.length + 1) s instr
      have h2 : hicF istart (instr.length + 1) s instr =
          hicStep istart (hicF istart instr.length) s instr := rfl
      rw [h2]
      apply hicStep_congr
      intro s1 rest hrest
      have e1 : hicF istart fuel s1 rest = hic istart s1 rest :=
        ih fuel (Nat.lt_succ_self _) s1 rest (by omega)
      have e2 : hicF istart instr.length s1 rest = hic istart s1 rest :=
        ih instr.length (by omega) s1 rest (by omega)
      rw [e1, e2]

/-- The defining recursive equation of the parser: `hic` satisfies one
`hicStep` with itself in the recursive positions. -/
theorem hic_unfold (istart : IStart) (s : PState) (instr : Str) :
    hic istart s instr = hicStep istart (hic istart) s instr := by
  have h1 : hic istart s instr = hicStep istart (hicF istart instr.length) s instr := rfl
  rw [h1]
  apply hicStep_congr
  intro s1 rest hrest
  exact hicF_congr istart instr.length s1 rest hrest

/-- `HttpMessageParser._handle_input`: prepend the pending buffer, clear
it, and run the state machine. -/
def handleInput (istart : IStart) (s : PState) (input : Str) : PState × List Ev :=
  hic istart { s with buf := [] } (s.buf ++ input)

/-- Feed a list of network fragments in order, collecting all events. -/
def feedList (istart : IStart) (s : PState) : List Str → PState × List Ev
  | [] => (s, [])
  | c :: r =>
    let (s1, e1) := handleInput istart s c
    let (s2, e2) := feedList istart s1 r
    (s2, e1 ++ e2)

/-- The arguments of one `_input_start` call together with the
`allows_body` it returned. -/
structure StartData where
  topLine : Str
  tuples : List (Str × Str)
  conn : List Str
  transfer : List Str
  cl : Option Int
  allows : Option Bool
deriving DecidableEq, Repr

/-- The fragmentation-insensitive view of an event trace: the start and
error callbacks in order, the body bytes as one concatenated stream, and
the number of end callbacks. -/
structure Obs where
  starts : List StartData
  bodyCat : Str
  ends : Nat
  errs : List (EKind × Str)
deriving DecidableEq, Repr

/-- Project an event trace to its observable view. -/
def obsOf : List Ev → Obs
  | [] => ⟨[], [], 0, []⟩
  | Ev.start a b c d e f :: r =>
    let o := obsOf r
    { o with starts := ⟨a, b, c, d, e, f⟩ :: o.starts }
  | Ev.body ch :: r =>
    let o := obsOf r
    { o with bodyCat := ch ++ o.bodyCat }
  | Ev.endOk :: r =>
    let o := obsOf r
    { o with ends := o.ends + 1 }
  | Ev.err k d :: r =>
    let o := obsOf r
    { o with errs := (k, d) :: o.errs }

/-- Componentwise combination of observable views. -/
def obsAppend (a b : Obs) : Obs :=
  ⟨a.starts ++ b.starts, a.bodyCat ++ b.bodyCat, a.ends + b.ends, a.errs ++ b.errs⟩

theorem obsOf_append (a b : List Ev) :
    obsOf (a ++ b) = obsAppend (obsOf a) (obsOf b) := by
  induction a with
  | nil => simp [obsOf, obsAppend]
  | cons e r ih =>
    cases e <;> simp [obsOf, ih, obsAppend] <;> omega

/-! ## The HTTP client (`client.py`) -/

/-- Python `s.split(None, 1)` when it yields exactly two parts: skip
leading whitespace, take the first token, skip the separating whitespace
run; `none` when there are fewer than two tokens (unpacking raises). -/
def pySplitWs1 (s : Str) : Option (Str × Str) :=
  let t := s.dropWhile pySpace
  let tok := t.takeWhile (fun c => !pySpace c)
  let rest := (t.dropWhile (fun c => !pySpace c)).dropWhile pySpace
  if tok = [] then none
  else if rest = [] then none
  else some (tok, rest)

/-- Python `s.rsplit(sep, 1)[1]` for a one-character separator: the text
after the last occurrence; `none` when `sep` does not occur (indexing
`[1]` raises `IndexError`). -/
def pyRsplitCharLast (sep : Char) : Str → Option Str
  | [] => none
  | c :: t =>
    match pyRsplitCharLast sep t with
    | some r => some r
    | none => if c = sep then some t else none

/-- Python `float(s)` on the decimal literals that HTTP version strings
use: optional surrounding whitespace, optional sign, digits with an
optional fractional part, optional exponent.  The value is returned as an
exact rational (adequate for the version comparisons in the source). -/
def pyFloat (s : Str) : Option ℚ :=
  let t := pyStrip s
  let (neg, t1) : Bool × Str :=
    match t with
    | '+' :: r => (false, r)
    | '-' :: r => (true, r)
    | r => (false, r)
  let intPart := t1.takeWhile (fun c => decide ('0' ≤ c ∧ c ≤ '9'))
  let t2 := t1.dropWhile (fun c => decide ('0' ≤ c ∧ c ≤ '9'))
  let (fracPart, t3) : Str × Str :=
    match t2 with
    | '.' :: r => (r.takeWhile (fun c => decide ('0' ≤ c ∧ c ≤ '9')),
                   r.dropWhile (fun c => decide ('0' ≤ c ∧ c ≤ '9')))
    | r => ([], r)
  if intPart = [] ∧ fracPart = [] then none
  else if (t2 ≠ [] ∧ t2.take 1 ≠ ['.']) ∧ t3 = t2 then none
  else
    let expOk : Option Int :=
      match t3 with
      | [] => some 0
      | 'e' :: r | 'E' :: r =>
        let (eneg, r1) : Bool × Str :=
          match r with
          | '+' :: q => (false, q)
          | '-' :: q => (true, q)
          | q => (false, q)
        match digitsVal 10 r1 with
        | some e => some (if eneg then -(e : Int) else (e : Int))
        | none => none
      | _ => none
    match expOk with
    | none => none
    | some e =>
      let iv : ℚ := (digitsVal 10 intPart).getD 0
      let fv : ℚ := ((digitsVal 10 fracPart).getD 0 : ℚ) / (10 : ℚ) ^ fracPart.length
      let mag : ℚ := (iv + fv) * (10 : ℚ) ^ e
      some (if neg then -mag else mag)

/-- The result of a successful `Client._input_start`. -/
structure ClientStartResult where
  resVersion : ℚ
  resCode : Str
  resPhrase : Str
  allowsBody : Bool
  connReusable : Bool
deriving DecidableEq, Repr

/-- `Client._input_start` from `client.py`: parse the status line, decide
connection reusability, and compute
`allows_body = (res_code not in no_body_status) or (self.method == "HEAD")`.
`none` models the re-raised `ValueError`. -/
def clientInputStart (method : Str) (topLine : Str) (connTokens : List Str) :
    Option ClientStartResult :=
  match pySplitWs1 topLine with
  | none => none
  | some (resVersionStr, statusTxt) =>
    match pyRsplitCharLast '/' resVersionStr with
    | none => none
    | some verTxt =>
      match pyFloat verTxt with
      | none => none
      | some v =>
        let (resCode, resPhrase) :=
          match pySplitWs1 statusTxt with
          | some (c, p) => (c, p)
          | none => (statusTxt, [])
        let reusable : Bool :=
          if "close".toList ∉ connTokens then
            decide ((v = 1 ∧ "keep-alive".toList ∈ connTokens) ∨ v > 1)
          else false
        let allows : Bool :=
          decide (resCode ∉ noBodyStatus) || decide (method = "HEAD".toList)
        some ⟨v, resCode, resPhrase, allows, reusable⟩

/-- The `_input_start` hook a `Client` with the given request method
installs on its parser. -/
def clientIStart (method : Str) : IStart := fun top _ conn _ _ =>
  (clientInputStart method top conn).map (·.allowsBody)

/-- An `_input_start` that accepts every message and allows a body
(a minimal concrete parser subclass, used for concrete runs). -/
def allowAllStart : IStart := fun _ _ _ _ _ => some true

/-- What `Client._conn_closed` does, beyond the `_handle_input("")`
flush. -/
inductive CCAction
  | noop            -- plain `return`
  | endOk           -- `_input_end()` after forcing WAITING (CLOSE delimiter)
  | retry           -- re-attach to the pool and resend
  | endErrConnect   -- `_input_end((ERR_CONNECT, "Server closed the connection."))`
deriving DecidableEq, Repr

/-- The branch structure of `Client._conn_closed` after the
`_handle_input("")` flush (note the `self._input_state == WAITING`
conjunct inside the branch that is only reached when the state is *not*
WAITING). -/
def connClosedCore (method : Str) (retries limit : Nat) (s1 : PState) :
    CCAction × PState :=
  if s1.ist = .waiting then (.noop, s1)
  else if s1.delim = .dCLOSE then (.endOk, { s1 with ist := .waiting })
  else if method ∈ idempotentMethods ∧ retries < limit ∧ s1.ist = .waiting then
    (.retry, s1)
  else (.endErrConnect, s1)

/-- `Client._conn_closed` from `client.py`: flush the pending buffer
through `_handle_input("")`, then branch on the parser state exactly as
the source does. -/
def connClosed (istart : IStart) (method : Str) (retries limit : Nat)
    (s : PState) : CCAction × PState :=
  connClosedCore method retries limit
    (if s.buf ≠ [] then (handleInput istart s []).1 else s)

/-! ## The HTTP server (`server.py`) -/

/-- Decimal rendering of `str(res_len)` for an integer. -/
def intStr (n : Int) : Str :=
  if n < 0 then '-' :: (Nat.repr (-n).toNat).toList
  else (Nat.repr n.toNat).toList

/-- The header loop of `HttpServerRequest.res_start`: computes the final
`res_len` (last `Content-Length` wins; an unparseable value re-raises,
modelled as `none`) and the emitted header lines minus hop-by-hop
headers. -/
def resHdrLoop (rlen : Option Int) (acc : List Str) :
    List (Str × Str) → Option (Option Int × List Str)
  | [] => some (rlen, acc)
  | (n, v) :: rest =>
    let norm := pyLower (pyStrip n)
    let step : Option (Option Int) :=
      if norm = "content-length".toList then
        match pyInt 10 v with
        | some k => some (some k)
        | none => none
      else some rlen
    match step with
    | none => none
    | some rlen1 =>
      if norm ∈ hopByHopHdrs then resHdrLoop rlen1 acc rest
      else resHdrLoop rlen1 (acc ++ [n ++ (": ".toList) ++ v]) rest

/-- `HttpServerRequest.res_start`: returns the chosen response delimiter
and the emitted header lines (before the terminating blank line), or
`none` when a `Content-Length` value fails to parse (the source
re-raises). `reqVersion = none` models a request whose version never got
assigned (Python `None`, which compares below every float). -/
def resStart (connectionHdr : List Str) (reqVersion : Option ℚ)
    (statusCode statusPhrase : Str) (resHdrs : List (Str × Str)) :
    Option (Delim × List Str) :=
  let top0 : List Str := [("HTTP/1.1 ".toList) ++ statusCode ++ (" ".toList) ++ statusPhrase]
  match resHdrLoop none [] resHdrs with
  | none => none
  | some (rlen, lines) =>
    let base := top0 ++ lines
    if "close".toList ∈ connectionHdr then
      some (.dCLOSE, base ++ [("Connection: close, asked_for".toList)])
    else
      match rlen with
      | some k =>
        some (.dCOUNTED,
          base ++ [("Content-Length: ".toList) ++ intStr k, ("Connection: keep-alive".toList)])
      | none =>
        if (match reqVersion with
            | some q => decide ((2 : ℚ) > q ∧ (11 : ℚ)/10 ≤ q)
            | none => false) then
          some (.dCHUNKED, base ++ [("Transfer-Encoding: chunked".toList)])
        else some (.dCLOSE, base ++ [("Connection: close".toList)])

/-- A callback delivery made to the application handler of a server
request: a request-body chunk or the `req_done(err)` completion signal
(`err` an opaque error id, `none` for success). -/
inductive Deliv
  | dBody (chunkData : Str)
  | dDone (e : Option Nat)
deriving DecidableEq, Repr

/-- The Python value stored in `HttpServerRequest._req_done`: `False`
initially, the `err` argument (possibly `None`) after an early
`req_done`.  Only an error dictionary is truthy. -/
inductive DoneFlag | notSet | setNone | setErr (e : Nat)
deriving DecidableEq, Repr

/-- The buffering state of one `HttpServerRequest` between construction
and `req_start` (`started` models `callable(self.req_body_cb)`). -/
structure SrvReq where
  started : Bool := false
  bodyBuf : List Str := []
  doneVal : DoneFlag := .notSet
deriving DecidableEq, Repr

/-- `HttpServerRequest.req_body`: deliver when the handler is attached,
else buffer. -/
def srvReqBody (r : SrvReq) (c : Str) : SrvReq × List Deliv :=
  if r.started then (r, [Deliv.dBody c])
  else ({ r with bodyBuf := r.bodyBuf ++ [c] }, [])

/-- `HttpServerRequest.req_done`: deliver when the handler is attached,
else record the (possibly falsy) error value in `_req_done`. -/
def srvReqDone (r : SrvReq) (err : Option Nat) : SrvReq × List Deliv :=
  if r.started then (r, [Deliv.dDone err])
  else ({ r with doneVal := match err with | none => .setNone | some e => .setErr e }, [])

/-- The non-error path of `HttpServerRequest.req_start`: attach the
handler, replay buffered body chunks, and replay the completion signal
only `if self._req_done:` — i.e. only when the stored value is truthy. -/
def srvReqStart (r : SrvReq) : SrvReq × List Deliv :=
  ({ r with started := true },
   r.bodyBuf.map Deliv.dBody ++
     (match r.doneVal with
      | .setErr e => [Deliv.dDone (some e)]
      | _ => []))

/-- Number of `req_done` deliveries in a delivery trace. -/
def countDone (ds : List Deliv) : Nat :=
  ds.countP (fun d => match d with | .dDone _ => true | _ => false)

/-! ## The SPDY header codec (`spdy_common.py`) -/

/-- SPDY byte strings (octets). -/
abbrev Bytes := List Nat

/-- Big-endian 16-bit encoding used by `struct.pack("!H", n)`. -/
def enc16 (n : Nat) : Bytes := [n / 256 % 256, n % 256]

/-- `struct.unpack("!h", data[:2])`: signed big-endian 16-bit read;
`none` when fewer than two bytes remain (`struct.error`). -/
def read16s : Bytes → Option (Int × Bytes)
  | a :: b :: r =>
    let v := a * 256 + b
    some ((if v < 32768 then (v : Int) else (v : Int) - 65536), r)
  | _ => none

/-- Strict lexicographic byte-string order, as Python `str` comparison. -/
def bytesLt : Bytes → Bytes → Bool
  | [], [] => false
  | [], _ :: _ => true
  | _ :: _, [] => false
  | a :: x, b :: y => if a < b then true else if b < a then false else bytesLt x y

/-- Python tuple order on `(name, value)` pairs (`hdr_tuples.sort()`). -/
def pairLe (a b : Bytes × Bytes) : Bool :=
  bytesLt a.1 b.1 || (a.1 = b.1 && (bytesLt a.2 b.2 || a.2 = b.2))

/-- Ordered insertion for `pySortPairs`. -/
def pInsertPair (x : Bytes × Bytes) : List (Bytes × Bytes) → List (Bytes × Bytes)
  | [] => [x]
  | y :: r => if pairLe x y then x :: y :: r else y :: pInsertPair x r

/-- The sorted order produced by Python `list.sort()` on header tuples. -/
def pySortPairs : List (Bytes × Bytes) → List (Bytes × Bytes)
  | [] => []
  | x :: r => pInsertPair x (pySortPairs r)

/-- One `(u16 nlen, name, u16 vlen, value)` record of the SPDY header
block; `none` when a length overflows `struct.pack("!H", ...)`. -/
def packPair (n v : Bytes) : Option Bytes :=
  if n.length < 65536 ∧ v.length < 65536 then
    some (enc16 n.length ++ n ++ enc16 v.length ++ v)
  else none

/-- Pack every record of a header block, failing if any length
overflows. -/
def packAll : List (Bytes × Bytes) → Option (List Bytes)
  | [] => some []
  | p :: r =>
    match packPair p.1 p.2, packAll r with
    | some b, some bs => some (b :: bs)
    | _, _ => none

/-- `SpdyMessageHandler._ser_hdrs` before compression: sort (Chromium
compatibility), then `u16 count` followed by the records. -/
def serHdrsPlain (tuples : List (Bytes × Bytes)) : Option Bytes :=
  if tuples.length < 65536 then
    match packAll (pySortPairs tuples) with
    | some pieces => some (enc16 tuples.length ++ pieces.flatten)
    | none => none
  else none

/-- The record loop of `SpdyMessageHandler._parse_hdrs` (cursor advanced
through the decompressed block; Python slicing truncates short reads, and
a short `struct` read raises, modelled as `none`; a negative length would
move the cursor backwards in Python, which we also model as a failure —
it cannot arise from well-formed input). -/
def parseHdrsGo (fuel : Nat) (data : Bytes) :
    Option (List (Bytes × Bytes)) :=
  match fuel with
  | 0 => none
  | fuel + 1 =>
    if data = [] then some []
    else
      match read16s data with
      | none => none
      | some (nlen, r1) =>
        if nlen < 0 then none
        else
          let name := r1.take nlen.toNat
          let r2 := r1.drop nlen.toNat
          match read16s r2 with
          | none => none
          | some (vlen, r3) =>
            if vlen < 0 then none
            else
              let v := r3.take vlen.toNat
              let r4 := r3.drop vlen.toNat
              match parseHdrsGo fuel r4 with
              | some rest => some ((name, v) :: rest)
              | none => none

/-- `SpdyMessageHandler._parse_hdrs` after decompression: read (and
ignore) the `u16 count`, then scan records until the block is
exhausted. -/
def parseHdrsPlain (data : Bytes) : Option (List (Bytes × Bytes)) :=
  match read16s data with
  | none => none
  | some (_, rest) => parseHdrsGo (rest.length + 1) rest

/-- `_ser_hdrs` through the session compressor. -/
def serHdrs (comp : Bytes → Bytes) (tuples : List (Bytes × Bytes)) : Option Bytes :=
  (serHdrsPlain tuples).map comp

/-- `_parse_hdrs` through the session decompressor. -/
def parseHdrs (decomp : Bytes → Bytes) (data : Bytes) : Option (List (Bytes × Bytes)) :=
  parseHdrsPlain (decomp data)

/-! ## Claim C1 -/

/-- C1: the spec claims that `Client._conn_closed` re-attaches and
resends when the peer closes before any response byte (parser still in
WAITING), the method is idempotent and the retry counter is under the
limit.  In the code the retry branch is dead: it requires
`_input_state == WAITING` inside the branch that is reached only when
the state is *not* WAITING, so `_conn_closed` never retries; on a
pre-response close (the claim's retry case, whose preconditions the third
conjunct exhibits) it silently returns instead. -/
theorem C1_retry_unreachable :
    (∀ (istart : IStart) (method : Str) (retries limit : Nat) (s : PState),
        (connClosed istart method retries limit s).1 ≠ CCAction.retry) ∧
    (connClosed allowAllStart ("GET".toList) 0 2 initPState).1 = CCAction.noop ∧
    ("GET".toList ∈ idempotentMethods ∧ 0 < 2 ∧ initPState.ist = IState.waiting) := by
  refine ⟨?_, by rfl, by decide, by decide, by rfl⟩
  intro istart method retries limit s
  unfold connClosed
  generalize (if s.buf ≠ [] then (handleInput istart s []).1 else s) = s1
  unfold connClosedCore
  split
  · simp
  · split
    · simp
    · split
      · rename_i hnw hncl hcond
        exact absurd hcond.2.2 hnw
      · simp

/-! ## Claim C3 -/

/-- C3: the spec claims `Client._input_start` reports
`allows_body = false` exactly when the status is in {100,101,204,304}
*or* the method was HEAD.  The code computes
`allows_body = (res_code not in no_body_status) or (method == "HEAD")`,
so a HEAD request *allows* a body (`some true`) for every status — the
second and third conjuncts evaluate the code at HEAD/200 and HEAD/204,
where the claim demands `false`. -/
theorem C3_allows_body_disjunction :
    (∀ (method topLine : Str) (conn : List Str),
        (clientInputStart method topLine conn).map (·.allowsBody) =
        (clientInputStart method topLine conn).map
          (fun r => decide (r.resCode ∉ noBodyStatus) || decide (method = "HEAD".toList))) ∧
    (clientInputStart ("HEAD".toList) ("HTTP/1.1 200 OK".toList) []).map (·.allowsBody) =
      some true ∧
    (clientInputStart ("HEAD".toList) ("HTTP/1.1 204 No Content".toList) []).map (·.allowsBody) =
      some true := by
  refine ⟨?_, by rfl, by rfl⟩
  intro method topLine conn
  unfold clientInputStart
  cases pySplitWs1 topLine with
  | none => rfl
  | some p =>
    obtain ⟨a, b⟩ := p
    dsimp only
    cases pyRsplitCharLast '/' a with
    | none => rfl
    | some vt =>
      dsimp only
      cases pyFloat vt with
      | none => rfl
      | some v => rfl

/-! ## Claim C7 -/

/-- Deliver a sequence of request-body chunks to one server request. -/
def srvBodies (r : SrvReq) : List Str → SrvReq × List Deliv
  | [] => (r, [])
  | c :: cs =>
    let (r1, d1) := srvReqBody r c
    let (r2, d2) := srvBodies r1 cs
    (r2, d1 ++ d2)

theorem srvBodies_unstarted (b : List Str) (chunks : List Str) :
    srvBodies ⟨false, b, .notSet⟩ chunks = (⟨false, b ++ chunks, .notSet⟩, []) := by
  induction chunks generalizing b with
  | nil => simp [srvBodies]
  | cons c cs ih =>
    simp [srvBodies, srvReqBody, ih]

theorem countDone_append (a b : List Deliv) :
    countDone (a ++ b) = countDone a + countDone b := by
  simp [countDone, List.countP_append]

theorem countDone_map_body (l : List Str) :
    countDone (l.map Deliv.dBody) = 0 := by
  induction l with
  | nil => rfl
  | cons c cs ih => simpa [countDone, List.countP_cons] using ih

/-- C7: the spec claims every request receives its completion signal
exactly once, *including* a pipelined request whose body completed before
its handler was started.  In the code, an early `req_done(None)` stores
`self._req_done = None`, and `req_start` replays it only
`if self._req_done:` — `None` is falsy, so the handler of such a request
never receives `req_done` (count 0, not 1).  For a request whose handler
is already attached the signal is delivered exactly once (third
conjunct). -/
theorem C7_pipelined_done_lost :
    (∀ chunks : List Str,
        countDone ((srvBodies ⟨false, [], .notSet⟩ chunks).2
          ++ (srvReqDone (srvBodies ⟨false, [], .notSet⟩ chunks).1 none).2
          ++ (srvReqStart (srvReqDone (srvBodies ⟨false, [], .notSet⟩ chunks).1 none).1).2) = 0) ∧
    countDone ((srvBodies ⟨false, [], .notSet⟩ [("hi".toList)]).2
      ++ (srvReqDone (srvBodies ⟨false, [], .notSet⟩ [("hi".toList)]).1 none).2
      ++ (srvReqStart (srvReqDone (srvBodies ⟨false, [], .notSet⟩ [("hi".toList)]).1 none).1).2) = 0 ∧
    countDone (srvReqDone ⟨true, [], .notSet⟩ none).2 = 1 := by
  refine ⟨?_, by rfl, by rfl⟩
  intro chunks
  rw [srvBodies_unstarted]
  simp only [List.nil_append]
  rw [show srvReqDone ⟨false, chunks, .notSet⟩ none = (⟨false, chunks, .setNone⟩, []) from rfl]
  simp only [List.nil_append]
  rw [show srvReqStart ⟨false, chunks, .setNone⟩ = (⟨true, chunks, .setNone⟩, chunks.map Deliv.dBody ++ []) from rfl]
  simp only [List.append_nil]
  exact countDone_map_body chunks

/-! ## Claim C2 -/

/-- The body-delimitation decision exactly as the spec words it:
1. `allows_body = false` → NONE; 2. else Transfer-Encoding present →
CHUNKED if it contains `chunked`, else CLOSE; 3. else Content-Length
present → COUNTED; 4. else Connection includes `close` → CLOSE;
5. else NONE. -/
def specDelimit (allowsBody : Bool) (transfer : List Str) (cl : Option Int)
    (conn : List Str) : Delim :=
  if !allowsBody then .dNONE
  else if transfer ≠ [] then
    if "chunked".toList ∈ transfer then .dCHUNKED else .dCLOSE
  else
    match cl with
    | some _ => .dCOUNTED
    | none => if "close".toList ∈ conn then .dCLOSE else .dNONE

/-- C2: whenever `_parse_headers` completes normally (state `s1`, one
`_input_start` event reporting `allows_body = b` over connection tokens
`conn`, transfer codes `tr` and content length `cl`), the delimiter it
stored equals the spec's priority-ordered decision, COUNTED sets
`body_left` to the Content-Length value, and a present Transfer-Encoding
has already forced the content length to `none` (I6). -/
theorem C2_delimitation_priority (istart : IStart) (s : PState) (top : Str)
    (s1 : PState) (tl : Str) (tu : List (Str × Str)) (conn tr : List Str)
    (cl : Option Int) (b : Bool)
    (h : parseHeaders istart s top = (s1, true, [Ev.start tl tu conn tr cl (some b)])) :
    s1.ist = .headersDone ∧
    s1.delim = specDelimit b tr cl conn ∧
    (b = true → ∀ n, cl = some n → s1.delim = .dCOUNTED ∧ s1.bodyLeft = n) ∧
    (tr ≠ [] → cl = none) := by
  unfold parseHeaders at h
  cases hsl : splitlines (lwsSub top) with
  | nil =>
    rw [hsl] at h
    exact absurd (congrArg (fun p => p.2.1) h) (by simp)
  | cons topLine hlines =>
    rw [hsl] at h
    dsimp only at h
    rcases hpq : procHeaders hlines with ⟨tu0, co0, tr0, cl0⟩
    rw [hpq] at h
    dsimp only at h
    cases his : istart topLine tu0 co0 tr0 (if tr0 ≠ [] then none else cl0) with
    | none =>
      rw [his] at h
      exact absurd (congrArg (fun p => p.2.1) h) (by simp)
    | some allows =>
      rw [his] at h
      have hs1 := congrArg Prod.fst h
      have hev := congrArg (fun p => p.2.2) h
      simp only [List.cons.injEq, and_true, Ev.start.injEq, Option.some.injEq] at hev
      obtain ⟨htl, htu, hco, htr, hcl, hb⟩ := hev
      subst htu hco htr hb
      dsimp only at hs1
      constructor
      · rw [← hs1]
        split_ifs <;> first
          | rfl
          | (cases cl0 <;> first | rfl | (split_ifs <;> rfl))
      refine ⟨?_, ?_, ?_⟩
      · rw [← hs1]
        unfold specDelimit
        by_cases ha : (!allows) = true
        · rw [if_pos ha, if_pos ha]
        · rw [if_neg ha, if_neg ha]
          by_cases ht : tr0 ≠ []
          · rw [if_pos ht, if_pos ht]
            by_cases hch : "chunked".toList ∈ tr0
            · rw [if_pos hch, if_pos hch]
            · rw [if_neg hch, if_neg hch]
          · rw [if_neg ht, if_neg ht]
            have hcv : cl = cl0 := by rw [← hcl, if_neg ht]
            rw [if_neg ht, ← hcv]
            cases cl with
            | some n => rfl
            | none =>
              by_cases hcn : "close".toList ∈ co0
              · rw [if_pos hcn, if_pos hcn]
              · rw [if_neg hcn, if_neg hcn]
      · intro hat n hn
        rw [← hs1]
        have ha : ¬((!allows) = true) := by simp [hat]
        rw [if_neg ha]
        by_cases ht : tr0 ≠ []
        · rw [← hcl, if_pos ht] at hn
          exact absurd hn (by simp)
        · rw [if_neg ht, if_neg ht]
          rw [← hcl, if_neg ht] at hn
          rw [hn]
          exact ⟨rfl, rfl⟩
      · intro ht
        rw [← hcl, if_pos ht]

/-! ## Claim C10 -/

/-- The claim's reading of the Content-Length extraction: scan the header
lines in order; the first line whose name is `content-length` (after
stripping and lowercasing) and whose stripped value parses as a Python
integer supplies the value, and every other occurrence (later ones, and
unparseable ones) is ignored. -/
def firstValidCL : List Str → Option Int
  | [] => none
  | line :: rest =>
    match splitFirst (":".toList) line with
    | none => firstValidCL rest
    | some (fn, fv) =>
      if pyLower (pyStrip fn) = "content-length".toList then
        match pyInt 10 (pyStrip fv) with
        | some n => some n
        | none => firstValidCL rest
      else firstValidCL rest

theorem splitFirst_single_of_not_mem {sep : Char} {pre suf : Str}
    (h : sep ∉ pre) : splitFirst [sep] (pre ++ sep :: suf) = some (pre, suf) := by
  induction pre with
  | nil => simp [splitFirst, List.isPrefixOf]
  | cons c t ih =>
    have hc : sep ≠ c := fun hcs => h (by simp [hcs])
    have ht : sep ∉ t := fun hm => h (by simp [hm])
    rw [List.cons_append, splitFirst]
    rw [if_neg (by simp [List.isPrefixOf, hc]), ih ht]

theorem procHeaders_snd_congr (c : Str) {ls1 ls2 : List Str}
    (h : (procHeaders ls1).2 = (procHeaders ls2).2) :
    (procHeaders (c :: ls1)).2 = (procHeaders (c :: ls2)).2 := by
  rw [procHeaders, procHeaders]
  rcases h1 : procHeaders ls1 with ⟨tu1, co1, tr1, cl1⟩
  rcases h2 : procHeaders ls2 with ⟨tu2, co2, tr2, cl2⟩
  rw [h1, h2] at h
  simp only [Prod.mk.injEq] at h
  obtain ⟨hco, htr, hcl⟩ := h
  subst hco htr hcl
  cases splitFirst (":".toList) c with
  | none => rfl
  | some p =>
    obtain ⟨fn, fv⟩ := p
    dsimp only
    split_ifs <;> try rfl
    cases pyInt 10 (pyStrip fv) <;> rfl

theorem procHeaders_bad_cl {l2 : List Str} {bad : Str}
    (hbad : pyInt 10 (pyStrip bad) = none) :
    (procHeaders ((("Content-Length:".toList) ++ bad) :: l2)).2 =
      (procHeaders l2).2 := by
  have hmid : (("Content-Length:".toList) ++ bad : Str) =
      ("Content-Length".toList) ++ ':' :: bad := by
    rw [show ("Content-Length:".toList : Str) = ("Content-Length".toList) ++ [':'] from rfl,
        List.append_assoc, List.singleton_append]
  have hsp : splitFirst (":".toList) (("Content-Length:".toList) ++ bad) =
      some (("Content-Length".toList), bad) := by
    rw [hmid]
    exact splitFirst_single_of_not_mem (by decide)
  rw [procHeaders, hsp]
  rcases hq : procHeaders l2 with ⟨tu, co, tr, cl⟩
  dsimp only
  rw [if_neg (by decide), if_neg (by decide), if_pos (by decide), hbad]

/-- C10: (a) the Content-Length value `_parse_headers` extracts is the
first parseable occurrence, with every later occurrence ignored; (b) a
`Content-Length` line whose value does not parse as an integer leaves the
delimitation-relevant outputs (connection tokens, transfer codes,
content length) exactly as if the line were absent — no parse error is
raised. -/
theorem C10_content_length_handling :
    (∀ lines : List Str, (procHeaders lines).2.2.2 = firstValidCL lines) ∧
    (∀ (l1 l2 : List Str) (bad : Str), pyInt 10 (pyStrip bad) = none →
        ((procHeaders (l1 ++ (("Content-Length:".toList) ++ bad) :: l2)).2.1 =
            (procHeaders (l1 ++ l2)).2.1 ∧
         (procHeaders (l1 ++ (("Content-Length:".toList) ++ bad) :: l2)).2.2.1 =
            (procHeaders (l1 ++ l2)).2.2.1 ∧
         (procHeaders (l1 ++ (("Content-Length:".toList) ++ bad) :: l2)).2.2.2 =
            (procHeaders (l1 ++ l2)).2.2.2)) := by
  constructor
  · intro lines
    induction lines with
    | nil => rfl
    | cons line rest ih =>
      rw [procHeaders, firstValidCL]
      rcases hq : procHeaders rest with ⟨tu, co, tr, cl⟩
      rw [hq] at ih
      cases hs : splitFirst (":".toList) line with
      | none => simpa using ih
      | some p =>
        obtain ⟨fn, fv⟩ := p
        dsimp only
        by_cases h1 : pyLower (pyStrip fn) = "connection".toList
        · rw [if_pos h1, if_neg (by rw [h1]; decide)]
          simpa using ih
        · rw [if_neg h1]
          by_cases h2 : pyLower (pyStrip fn) = "transfer-encoding".toList
          · rw [if_pos h2, if_neg (by rw [h2]; decide)]
            simpa using ih
          · rw [if_neg h2]
            by_cases h3 : pyLower (pyStrip fn) = "content-length".toList
            · rw [if_pos h3, if_pos h3]
              cases pyInt 10 (pyStrip fv) with
              | none => simpa using ih
              | some n => rfl
            · rw [if_neg h3, if_neg h3]
              simpa using ih
  · intro l1 l2 bad hbad
    have key2 : (procHeaders (l1 ++ (("Content-Length:".toList) ++ bad) :: l2)).2 =
        (procHeaders (l1 ++ l2)).2 := by
      induction l1 with
      | nil =>
        simpa using @procHeaders_bad_cl l2 bad hbad
      | cons c l1x ih =>
        rw [List.cons_append, List.cons_append]
        exact procHeaders_snd_congr c ih
    exact ⟨congrArg (fun x => x.1) key2, congrArg (fun x => x.2.1) key2,
           congrArg (fun x => x.2.2) key2⟩

/-! ## Claim C4 -/

/-! ## Claim C4 -/

/-- C4 counterexample: for a request whose `Connection` tokens contain
`close`, `res_start` appends the header line
`Connection: close, asked_for` — not `Connection: close` as the claim
states. -/
theorem C4_counterexample :
    resStart ["close".toList] (some ((11 : ℚ)/10)) ("200".toList) ("OK".toList) [] =
      some (Delim.dCLOSE,
        [("HTTP/1.1 200 OK".toList), ("Connection: close, asked_for".toList)]) ∧
    ("Connection: close".toList) ∉
      [("HTTP/1.1 200 OK".toList), ("Connection: close, asked_for".toList)] := by
  exact ⟨by rfl, by decide⟩

/-- C4 as amended: the four branches of `HttpServerRequest.res_start`,
with the first branch emitting `Connection: close, asked_for` (the
string the code actually appends). -/
theorem C4_res_start_branches (connHdr : List Str) (v : Option ℚ)
    (code phrase : Str) (hdrs : List (Str × Str)) (d : Delim) (lines : List Str)
    (h : resStart connHdr v code phrase hdrs = some (d, lines)) :
    (("close".toList) ∈ connHdr →
        d = .dCLOSE ∧ ("Connection: close, asked_for".toList) ∈ lines) ∧
    (("close".toList) ∉ connHdr →
      (∀ k ls, resHdrLoop none [] hdrs = some (some k, ls) →
        d = .dCOUNTED ∧ ("Connection: keep-alive".toList) ∈ lines) ∧
      (∀ ls, resHdrLoop none [] hdrs = some (none, ls) →
        ((∃ q, v = some q ∧ (11 : ℚ)/10 ≤ q ∧ q < 2) →
            d = .dCHUNKED ∧ ("Transfer-Encoding: chunked".toList) ∈ lines) ∧
        ((¬ ∃ q, v = some q ∧ (11 : ℚ)/10 ≤ q ∧ q < 2) →
            d = .dCLOSE ∧ ("Connection: close".toList) ∈ lines))) := by
  unfold resStart at h
  cases hloop : resHdrLoop none [] hdrs with
  | none =>
    rw [hloop] at h
    exact absurd h (by simp)
  | some p =>
    obtain ⟨rlen, hls⟩ := p
    rw [hloop] at h
    dsimp only at h
    by_cases hc : ("close".toList) ∈ connHdr
    · rw [if_pos hc] at h
      simp only [Option.some.injEq, Prod.mk.injEq] at h
      obtain ⟨hd, hlines⟩ := h
      refine ⟨fun _ => ⟨hd.symm, ?_⟩, fun hcn => absurd hc hcn⟩
      rw [← hlines]
      simp
    · rw [if_neg hc] at h
      refine ⟨fun hcc => absurd hcc hc, fun _ => ⟨?_, ?_⟩⟩
      · intro k ls hl2
        have hx2 := hl2
        simp only [Option.some.injEq, Prod.mk.injEq] at hx2
        obtain ⟨hrk, hlsx⟩ := hx2
        rw [hrk] at h
        dsimp only at h
        simp only [Option.some.injEq, Prod.mk.injEq] at h
        obtain ⟨hd, hlines⟩ := h
        refine ⟨hd.symm, ?_⟩
        rw [← hlines]
        simp
      · intro ls hl2
        have hx2 := hl2
        simp only [Option.some.injEq, Prod.mk.injEq] at hx2
        obtain ⟨hrn, hlsx⟩ := hx2
        rw [hrn] at h
        dsimp only at h
        cases v with
        | none =>
          rw [if_neg (by simp)] at h
          simp only [Option.some.injEq, Prod.mk.injEq] at h
          obtain ⟨hd, hlines⟩ := h
          constructor
          · rintro ⟨q, hq, h11, h2⟩
            exact absurd hq (by simp)
          · intro hno
            refine ⟨hd.symm, ?_⟩
            rw [← hlines]
            simp
        | some q =>
          by_cases hin : (2 : ℚ) > q ∧ (11 : ℚ)/10 ≤ q
          · rw [if_pos (by simp only [decide_eq_true_eq]; exact hin)] at h
            simp only [Option.some.injEq, Prod.mk.injEq] at h
            obtain ⟨hd, hlines⟩ := h
            constructor
            · intro hq2
              refine ⟨hd.symm, ?_⟩
              rw [← hlines]
              simp
            · intro hno
              exact absurd ⟨q, rfl, hin.2, hin.1⟩ hno
          · rw [if_neg (by simp only [decide_eq_true_eq]; exact hin)] at h
            simp only [Option.some.injEq, Prod.mk.injEq] at h
            obtain ⟨hd, hlines⟩ := h
            constructor
            · rintro ⟨q2, hq2, h11, h2⟩
              simp only [Option.some.injEq] at hq2
              subst hq2
              exact absurd ⟨h2, h11⟩ hin
            · intro hno
              refine ⟨hd.symm, ?_⟩
              rw [← hlines]
              simp

/-- Closed instance of `C4_res_start_branches` (hypothesis discharged at
a concrete `res_start` call in the final CLOSE branch). -/
theorem C4_res_start_branches_witness :
    (("close".toList) ∈ ([] : List Str) →
        Delim.dCLOSE = Delim.dCLOSE ∧
        ("Connection: close, asked_for".toList) ∈
          [("HTTP/1.1 200 OK".toList), ("Connection: close".toList)]) ∧
    (("close".toList) ∉ ([] : List Str) →
      (∀ k ls, resHdrLoop none [] ([] : List (Str × Str)) = some (some k, ls) →
        Delim.dCLOSE = .dCOUNTED ∧ ("Connection: keep-alive".toList) ∈
          [("HTTP/1.1 200 OK".toList), ("Connection: close".toList)]) ∧
      (∀ ls, resHdrLoop none [] ([] : List (Str × Str)) = some (none, ls) →
        ((∃ q, (none : Option ℚ) = some q ∧ (11 : ℚ)/10 ≤ q ∧ q < 2) →
            Delim.dCLOSE = .dCHUNKED ∧ ("Transfer-Encoding: chunked".toList) ∈
              [("HTTP/1.1 200 OK".toList), ("Connection: close".toList)]) ∧
        ((¬ ∃ q, (none : Option ℚ) = some q ∧ (11 : ℚ)/10 ≤ q ∧ q < 2) →
            Delim.dCLOSE = .dCLOSE ∧ ("Connection: close".toList) ∈
              [("HTTP/1.1 200 OK".toList), ("Connection: close".toList)]))) :=
  C4_res_start_branches [] none ("200".toList) ("OK".toList) [] Delim.dCLOSE
    [("HTTP/1.1 200 OK".toList), ("Connection: close".toList)] (by rfl)

/-! ## Claim C8 -/

/-- The wire form of a single header record. -/
def encRecord (p : Bytes × Bytes) : Bytes :=
  enc16 p.1.length ++ p.1 ++ enc16 p.2.length ++ p.2

theorem read16s_enc16 {k : Nat} (h : k < 32768) (x : Bytes) :
    read16s (enc16 k ++ x) = some ((k : Int), x) := by
  unfold enc16 read16s
  simp only [List.cons_append, List.nil_append]
  have hv : k / 256 % 256 * 256 + k % 256 = k := by omega
  rw [hv]
  rw [if_pos (by exact_mod_cast h)]

theorem packAll_eq_of_bounds {l : List (Bytes × Bytes)}
    (h : ∀ p ∈ l, p.1.length < 32768 ∧ p.2.length < 32768) :
    packAll l = some (l.map encRecord) := by
  induction l with
  | nil => rfl
  | cons p r ih =>
    have hp := h p (by simp)
    have hr := ih (fun q hq => h q (by simp [hq]))
    rw [packAll, hr]
    unfold packPair
    rw [if_pos ⟨by omega, by omega⟩]
    rfl

theorem parseHdrsGo_records {l : List (Bytes × Bytes)} :
    ∀ {fuel : Nat}, (∀ p ∈ l, p.1.length < 32768 ∧ p.2.length < 32768) →
      l.length < fuel →
      parseHdrsGo fuel ((l.map encRecord).flatten) = some l := by
  induction l with
  | nil =>
    intro fuel h hf
    match fuel, hf with
    | fuel + 1, _ => rfl
  | cons p r ih =>
    intro fuel h hf
    match fuel, hf with
    | fuel + 1, hf =>
      obtain ⟨n, v⟩ := p
      have hp := h (n, v) (by simp)
      have hrest := ih (fun q hq => h q (by simp [hq])) (by simpa using Nat.lt_of_succ_lt_succ hf)
      have hdata : ((((n, v) :: r).map encRecord).flatten : Bytes) =
          enc16 n.length ++ (n ++ (enc16 v.length ++ (v ++ (r.map encRecord).flatten))) := by
        simp [encRecord, List.append_assoc]
      rw [parseHdrsGo, hdata]
      rw [if_neg (by simp [enc16])]
      rw [read16s_enc16 hp.1]
      have hnn : ¬((n.length : Int) < 0) := by simp
      dsimp only
      rw [if_neg hnn]
      simp only [Int.toNat_natCast, List.take_left, List.drop_left]
      rw [read16s_enc16 hp.2]
      have hvn : ¬((v.length : Int) < 0) := by simp
      dsimp only
      rw [if_neg hvn]
      simp only [Int.toNat_natCast, List.take_left, List.drop_left]
      rw [hrest]

theorem mem_pInsertPair {x y : Bytes × Bytes} {l : List (Bytes × Bytes)} :
    y ∈ pInsertPair x l ↔ y = x ∨ y ∈ l := by
  induction l with
  | nil => simp [pInsertPair]
  | cons z r ih =>
    rw [pInsertPair]
    by_cases hle : pairLe x z
    · simp [hle]
    · simp only [hle, if_false, Bool.false_eq_true, ite_false, List.mem_cons, ih]
      tauto

theorem mem_pySortPairs {y : Bytes × Bytes} {l : List (Bytes × Bytes)} :
    y ∈ pySortPairs l ↔ y ∈ l := by
  induction l with
  | nil => simp [pySortPairs]
  | cons x r ih =>
    rw [pySortPairs]
    rw [mem_pInsertPair]
    simp [ih]

theorem length_pInsertPair (x : Bytes × Bytes) (l : List (Bytes × Bytes)) :
    (pInsertPair x l).length = l.length + 1 := by
  induction l with
  | nil => rfl
  | cons z r ih =>
    rw [pInsertPair]
    by_cases hle : pairLe x z
    · simp [hle]
    · simp [hle, ih]

theorem length_pySortPairs (l : List (Bytes × Bytes)) :
    (pySortPairs l).length = l.length := by
  induction l with
  | nil => rfl
  | cons x r ih => rw [pySortPairs, length_pInsertPair, ih]; rfl

theorem length_le_flatten_encRecord (l : List (Bytes × Bytes)) :
    l.length ≤ ((l.map encRecord).flatten).length := by
  induction l with
  | nil => simp
  | cons p r ih =>
    simp only [List.map_cons, List.flatten_cons, List.length_append,
      List.length_cons, encRecord, enc16, List.length_cons]
    simp only [List.length_append, List.length_cons, List.length_nil]
    omega

/-- C8 counterexample: `_parse_hdrs ∘ _ser_hdrs` (identity compression)
returns the *sorted* tuple list, not the original —
`_ser_hdrs` sorts for Chromium compatibility, so the round-trip is not
the identity on unsorted input. -/
theorem C8_counterexample :
    serHdrs id [([98], [1]), ([97], [2])] =
      some [0, 2, 0, 1, 97, 0, 1, 2, 0, 1, 98, 0, 1, 1] ∧
    parseHdrs id [0, 2, 0, 1, 97, 0, 1, 2, 0, 1, 98, 0, 1, 1] =
      some [([97], [2]), ([98], [1])] ∧
    pySortPairs [([98], [1]), ([97], [2])] = [([97], [2]), ([98], [1])] ∧
    ([([97], [2]), ([98], [1])] : List (Bytes × Bytes)) ≠ [([98], [1]), ([97], [2])] := by
  refine ⟨by rfl, by rfl, by rfl, by decide⟩

/-- C8 as amended: for header tuples whose names, values (each shorter
than `2^15`, so the signed `!h` reads are positive) and count (below
`2^16`) fit the wire format, serialising through any compressor and
parsing through its inverse decompressor returns the tuples in Python's
sorted order. -/
theorem C8_roundtrip_sorted (comp decomp : Bytes → Bytes)
    (hinv : ∀ b, decomp (comp b) = b)
    (tuples : List (Bytes × Bytes))
    (hb : ∀ p ∈ tuples, p.1.length < 32768 ∧ p.2.length < 32768)
    (hc : tuples.length < 65536) :
    ∃ b, serHdrs comp tuples = some b ∧
      parseHdrs decomp b = some (pySortPairs tuples) := by
  have hbs : ∀ p ∈ pySortPairs tuples, p.1.length < 32768 ∧ p.2.length < 32768 :=
    fun p hp => hb p (mem_pySortPairs.mp hp)
  have hpack := packAll_eq_of_bounds hbs
  have hplain : serHdrsPlain tuples =
      some (enc16 tuples.length ++ ((pySortPairs tuples).map encRecord).flatten) := by
    unfold serHdrsPlain
    rw [if_pos hc, hpack]
  refine ⟨comp (enc16 tuples.length ++ ((pySortPairs tuples).map encRecord).flatten), ?_, ?_⟩
  · unfold serHdrs
    rw [hplain]
    rfl
  · unfold parseHdrs
    rw [hinv]
    unfold parseHdrsPlain
    have h2 : read16s (enc16 tuples.length ++ ((pySortPairs tuples).map encRecord).flatten) =
        some ((if tuples.length < 32768 then (tuples.length : Int) else (tuples.length : Int) - 65536),
          ((pySortPairs tuples).map encRecord).flatten) := by
      unfold enc16 read16s
      simp only [List.cons_append, List.nil_append]
      have hv : tuples.length / 256 % 256 * 256 + tuples.length % 256 = tuples.length := by omega
      rw [hv]
    rw [h2]
    exact parseHdrsGo_records hbs
      (by have := length_le_flatten_encRecord (pySortPairs tuples); omega)

/-- Closed instance of `C8_roundtrip_sorted` at the identity compressor
and a sorted singleton list. -/
theorem C8_roundtrip_sorted_witness :
    ∃ b, serHdrs id [([0], [1])] = some b ∧
      parseHdrs id b = some (pySortPairs [([0], [1])]) :=
  C8_roundtrip_sorted id id (fun _ => rfl) [([0], [1])] (by decide) (by decide)

/-! ## Claim C6 -/

theorem hic_counted (istart : IStart) (b : Str) (bl : Int) (instr : Str) :
    hic istart ⟨b, .headersDone, .dCOUNTED, bl⟩ instr =
      if bl < 0 then (⟨b, .headersDone, .dCOUNTED, bl⟩, [])
      else if bl ≤ instr.length then
        if instr.drop bl.toNat ≠ [] then
          (⟨b, .waiting, .dCOUNTED, bl⟩,
           [Ev.body (instr.take bl.toNat), Ev.err .extraData (instr.drop bl.toNat)])
        else (⟨b, .waiting, .dCOUNTED, bl⟩, [Ev.body (instr.take bl.toNat), Ev.endOk])
      else (⟨b, .headersDone, .dCOUNTED, bl - instr.length⟩, [Ev.body instr]) := by
  rw [hic_unfold]
  rfl

theorem handleInput_waiting_nil (istart : IStart) (d : Delim) (bl : Int) :
    handleInput istart ⟨[], .waiting, d, bl⟩ [] = (⟨[], .waiting, d, bl⟩, []) := by
  unfold handleInput
  rw [hic_unfold]
  rfl

theorem feedList_empties (istart : IStart) (d : Delim) (bl : Int) :
    ∀ frags : List Str, (∀ f ∈ frags, f = []) →
      feedList istart ⟨[], .waiting, d, bl⟩ frags = (⟨[], .waiting, d, bl⟩, []) := by
  intro frags h
  induction frags with
  | nil => rfl
  | cons c r ih =>
    have hc : c = [] := h c (by simp)
    subst hc
    rw [feedList, handleInput_waiting_nil]
    dsimp only
    rw [ih (fun f hf => h f (by simp [hf]))]
    rfl

theorem counted_feed_obs (istart : IStart) :
    ∀ (frags : List Str) (n : Nat), frags ≠ [] → frags.flatten.length = n →
      obsOf (feedList istart ⟨[], .headersDone, .dCOUNTED, (n : Int)⟩ frags).2 =
        ⟨[], frags.flatten, 1, []⟩ := by
  intro frags
  induction frags with
  | nil => intro n h; exact absurd rfl h
  | cons c r ih =>
    intro n _ hlen
    have hsplit : c.length + r.flatten.length = n := by
      simpa [List.length_append] using hlen
    rw [feedList]
    have hh : handleInput istart ⟨[], .headersDone, .dCOUNTED, (n : Int)⟩ c =
        hic istart ⟨[], .headersDone, .dCOUNTED, (n : Int)⟩ c := rfl
    by_cases hr0 : r.flatten.length = 0
    · -- the first fragment completes the body exactly
      have hcn : c.length = n := by omega
      have hend : handleInput istart ⟨[], .headersDone, .dCOUNTED, (n : Int)⟩ c =
          (⟨[], .waiting, .dCOUNTED, (n : Int)⟩, [Ev.body c, Ev.endOk]) := by
        rw [hh, hic_counted]
        rw [if_neg (by omega), if_pos (by exact_mod_cast Nat.le_of_eq hcn.symm)]
        have hdrop : c.drop (n : Int).toNat = [] := by
          rw [Int.toNat_natCast]
          exact List.drop_eq_nil_of_le (by omega)
        rw [if_neg (by simpa using hdrop)]
        rw [Int.toNat_natCast, ← hcn, List.take_length]
      rw [hend]
      dsimp only
      have hempt : ∀ f ∈ r, f = [] := by
        have hfn : r.flatten = [] := List.eq_nil_of_length_eq_zero hr0
        rw [List.flatten_eq_nil_iff] at hfn
        exact hfn
      rw [feedList_empties istart _ _ r hempt]
      dsimp only
      have hfl : (c :: r).flatten = c := by
        have hfn : r.flatten = [] := List.eq_nil_of_length_eq_zero hr0
        simp [hfn]
      rw [hfl]
      simp [obsOf]
    · -- more body follows in later fragments
      have hlt : c.length < n := by omega
      have hstep : handleInput istart ⟨[], .headersDone, .dCOUNTED, (n : Int)⟩ c =
          (⟨[], .headersDone, .dCOUNTED, (n : Int) - c.length⟩, [Ev.body c]) := by
        rw [hh, hic_counted]
        rw [if_neg (by omega), if_neg (by exact_mod_cast Nat.not_le_of_lt hlt)]
      rw [hstep]
      dsimp only
      have hrne : r ≠ [] := by
        intro hre
        rw [hre] at hr0
        exact hr0 rfl
      have hcast : ((n : Int) - c.length) = ((n - c.length : Nat) : Int) := by omega
      rw [hcast]
      have hr2 := ih (n - c.length) hrne (by omega)
      rcases hfr : feedList istart
          ⟨[], .headersDone, .dCOUNTED, ((n - c.length : Nat) : Int)⟩ r with ⟨s2, e2⟩
      rw [hfr] at hr2
      dsimp only
      rw [obsOf_append, hr2]
      have hfl : (c :: r).flatten = c ++ r.flatten := rfl
      rw [hfl]
      simp [obsOf, obsAppend]

/-- C6 counterexample: with `Content-Length: 1`, the byte beyond the
first arrives in a *later* `_handle_input` call; the parser delivers the
body, fires `_input_end`, resets to WAITING and silently buffers the
excess as the start of a new message — no EXTRA_DATA error, and
`_input_end` *is* called, contrary to the claim's unconditional reading. -/
theorem C6_counterexample :
    (feedList allowAllStart initPState
        [("x\r\nContent-Length: 1\r\n\r\n".toList), ("A".toList), ("XY".toList)]).2 =
      [Ev.start ("x".toList) [(("Content-Length".toList), (" 1".toList))] [] [] (some 1) (some true),
       Ev.body [], Ev.body ("A".toList), Ev.endOk] ∧
    Ev.endOk ∈
      [Ev.start ("x".toList) [(("Content-Length".toList), (" 1".toList))] [] [] (some 1) (some true),
       Ev.body [], Ev.body ("A".toList), Ev.endOk] ∧
    Ev.err EKind.extraData ("XY".toList) ∉
      [Ev.start ("x".toList) [(("Content-Length".toList), (" 1".toList))] [] [] (some 1) (some true),
       Ev.body [], Ev.body ("A".toList), Ev.endOk] := by
  refine ⟨by rfl, by decide, by decide⟩

/-- C6 as amended: in COUNTED mode with `body_left = N`, (1) a single
call whose input runs past the N-th byte delivers exactly the first N
bytes, then raises EXTRA_DATA with the excess as detail and does not call
`_input_end`; (2) a single call delivering exactly the remaining N bytes
fires `_input_end`; (3) across any fragmentation totalling exactly N
bytes, the concatenated body equals the input and `_input_end` fires
exactly once with no error.  Extras arriving after the call that
completed the body are instead treated as the start of a new message
(see the counterexample). -/
theorem C6_counted_delivery :
    (∀ (istart : IStart) (n : Nat) (instr : Str), (n : Int) < instr.length →
        handleInput istart ⟨[], .headersDone, .dCOUNTED, (n : Int)⟩ instr =
          (⟨[], .waiting, .dCOUNTED, (n : Int)⟩,
           [Ev.body (instr.take n), Ev.err .extraData (instr.drop n)])) ∧
    (∀ (istart : IStart) (instr : Str),
        handleInput istart ⟨[], .headersDone, .dCOUNTED, (instr.length : Int)⟩ instr =
          (⟨[], .waiting, .dCOUNTED, (instr.length : Int)⟩, [Ev.body instr, Ev.endOk])) ∧
    (∀ (istart : IStart) (frags : List Str), frags ≠ [] →
        obsOf (feedList istart
            ⟨[], .headersDone, .dCOUNTED, (frags.flatten.length : Int)⟩ frags).2 =
          ⟨[], frags.flatten, 1, []⟩) := by
  refine ⟨?_, ?_, ?_⟩
  · intro istart n instr hlt
    have hh : handleInput istart ⟨[], .headersDone, .dCOUNTED, (n : Int)⟩ instr =
        hic istart ⟨[], .headersDone, .dCOUNTED, (n : Int)⟩ instr := rfl
    rw [hh, hic_counted]
    rw [if_neg (by omega), if_pos (by omega)]
    have hdropne : instr.drop (n : Int).toNat ≠ [] := by
      rw [Int.toNat_natCast]
      intro hnil
      have := congrArg List.length hnil
      simp only [List.length_drop, List.length_nil] at this
      omega
    rw [if_pos hdropne, Int.toNat_natCast]
  · intro istart instr
    have hh : handleInput istart ⟨[], .headersDone, .dCOUNTED, (instr.length : Int)⟩ instr =
        hic istart ⟨[], .headersDone, .dCOUNTED, (instr.length : Int)⟩ instr := rfl
    rw [hh, hic_counted]
    rw [if_neg (by omega), if_pos (by omega), Int.toNat_natCast]
    rw [if_neg (by simp [List.drop_eq_nil_of_le])]
    rw [List.take_length]
  · intro istart frags hne
    exact counted_feed_obs istart frags frags.flatten.length hne rfl

/-- Closed instance of `C6_counted_delivery` (hypotheses discharged at
`N = 1` with input `"AB"`, and at the fragmentation `["A"]`). -/
theorem C6_counted_delivery_witness :
    handleInput allowAllStart ⟨[], .headersDone, .dCOUNTED, ((1 : Nat) : Int)⟩ ("AB".toList) =
      (⟨[], .waiting, .dCOUNTED, ((1 : Nat) : Int)⟩,
       [Ev.body (("AB".toList).take 1), Ev.err .extraData (("AB".toList).drop 1)]) ∧
    obsOf (feedList allowAllStart
        ⟨[], .headersDone, .dCOUNTED, ((["A".toList].flatten).length : Int)⟩ ["A".toList]).2 =
      ⟨[], ["A".toList].flatten, 1, []⟩ :=
  ⟨C6_counted_delivery.1 allowAllStart 1 ("AB".toList) (by decide),
   C6_counted_delivery.2.2 allowAllStart ["A".toList] (by decide)⟩

/-! ## Claim C9 -/

theorem hdrEndAt_congr {u v : Str} (h : u.take 4 = v.take 4) :
    hdrEndAt u = hdrEndAt v := by
  unfold hdrEndAt
  rw [h]

theorem hdrEndSearch_eq_none_iff {s : Str} :
    hdrEndSearch s = none ↔ ∀ j, hdrEndAt (s.drop j) = none := by
  induction s with
  | nil =>
    simp only [hdrEndSearch, List.drop_nil, true_iff]
    intro j
    rfl
  | cons c t ih =>
    rw [hdrEndSearch]
    cases hat : hdrEndAt (c :: t) with
    | some l =>
      simp only [false_iff]
      constructor
      · intro h
        exact absurd h (by simp)
      · intro h
        have h0 := h 0
        rw [List.drop_zero, hat] at h0
        exact absurd h0 (by simp)
    | none =>
      cases hse : hdrEndSearch t with
      | some p =>
        obtain ⟨i0, l0⟩ := p
        simp only
        constructor
        · intro h
          exact absurd h (by simp)
        · intro h
          have : hdrEndSearch t = none := by
            rw [ih]
            intro j
            have := h (j + 1)
            simpa using this
          rw [hse] at this
          exact absurd this (by simp)
      | none =>
        simp only [true_iff]
        intro j
        cases j with
        | zero => rw [List.drop_zero]; exact hat
        | succ j =>
          have := (ih.mp hse) j
          simpa using this

theorem hdrEndSearch_intro {s : Str} {i l : Nat}
    (hbefore : ∀ j < i, hdrEndAt (s.drop j) = none)
    (hat : hdrEndAt (s.drop i) = some l) :
    hdrEndSearch s = some (i, l) := by
  induction i generalizing s with
  | zero =>
    rw [List.drop_zero] at hat
    cases s with
    | nil => rw [show hdrEndAt ([] : Str) = none from rfl] at hat; exact absurd hat (by simp)
    | cons c t => rw [hdrEndSearch, hat]
  | succ i ih =>
    cases s with
    | nil =>
      rw [List.drop_nil] at hat
      rw [show hdrEndAt ([] : Str) = none from rfl] at hat
      exact absurd hat (by simp)
    | cons c t =>
      have h0 := hbefore 0 (Nat.succ_pos i)
      rw [List.drop_zero] at h0
      rw [hdrEndSearch, h0]
      have hrec : hdrEndSearch t = some (i, l) := by
        apply ih
        · intro j hj
          have := hbefore (j + 1) (by omega)
          simpa using this
        · simpa using hat
      rw [hrec]

theorem search_crlf_boundary (X Y : Str)
    (h : hdrEndSearch (X ++ ('\r' :: '\n' :: ['\r'])) = none) :
    hdrEndSearch (X ++ ('\r' :: '\n' :: '\r' :: '\n' :: Y)) = some (X.length, 4) := by
  have hall := hdrEndSearch_eq_none_iff.mp h
  apply hdrEndSearch_intro
  · intro j hj
    have hP := hall j
    have hagree : ((X ++ ('\r' :: '\n' :: '\r' :: '\n' :: Y)).drop j).take 4 =
        ((X ++ ('\r' :: '\n' :: ['\r'])).drop j).take 4 := by
      rw [List.drop_append_of_le_length (by omega),
          List.drop_append_of_le_length (by omega)]
      rw [List.take_append_eq_append_take, List.take_append_eq_append_take]
      have hlen : 4 - (X.drop j).length ≤ 3 := by
        simp only [List.length_drop]
        omega
      congr 1
      rw [show ('\r' :: '\n' :: '\r' :: '\n' :: Y : Str) =
            ('\r' :: '\n' :: ['\r']) ++ ('\n' :: Y) from rfl]
      rw [List.take_append_of_le_length (by simpa using hlen)]
    rw [hdrEndAt_congr hagree]
    exact hP
  · rw [List.drop_left]
    rfl

theorem search_lflf_boundary (X Y : Str)
    (h : hdrEndSearch (X ++ ['\n']) = none)
    (hr : X.drop (X.length - 1) ≠ ['\r']) :
    hdrEndSearch (X ++ ('\n' :: '\n' :: Y)) = some (X.length, 2) := by
  have hall := hdrEndSearch_eq_none_iff.mp h
  apply hdrEndSearch_intro
  · intro j hj
    have hP := hall j
    rw [@List.drop_append_of_le_length _ X ['\n'] j (by omega)] at hP
    rw [List.drop_append_of_le_length (by omega)]
    by_cases h3 : 3 ≤ (X.drop j).length
    · -- the four-char window is determined by X and the shared first char
      have hagree : ((X.drop j) ++ ('\n' :: '\n' :: Y)).take 4 =
          ((X.drop j) ++ ['\n']).take 4 := by
        rw [List.take_append_eq_append_take, List.take_append_eq_append_take]
        have hlen : 4 - (X.drop j).length ≤ 1 := by omega
        congr 1
        rw [show ('\n' :: '\n' :: Y : Str) = ['\n'] ++ ('\n' :: Y) from rfl]
        rw [List.take_append_of_le_length (by simpa using hlen)]
      rw [hdrEndAt_congr hagree]
      exact hP
    · -- j is within the last two characters of X
      have hlen2 : (X.drop j).length = X.length - j := by simp
      have hj2 : (X.drop j).length = 1 ∨ (X.drop j).length = 2 := by omega
      rcases hj2 with h1 | h2
      · -- a single trailing character x0
        obtain ⟨x0, hx0⟩ : ∃ x0, X.drop j = [x0] := by
          cases hxd : X.drop j with
          | nil => rw [hxd] at h1; simp at h1
          | cons a t =>
            cases t with
            | nil => exact ⟨a, rfl⟩
            | cons b t2 => rw [hxd] at h1; simp at h1
        rw [hx0] at hP ⊢
        have hx0r : x0 ≠ '\r' := by
          intro he
          apply hr
          have hjv : j = X.length - 1 := by omega
          rw [← hjv, hx0, he]
        have hx0n : x0 ≠ '\n' := by
          intro he
          rw [he] at hP
          exact absurd hP (by decide)
        show hdrEndAt (x0 :: '\n' :: '\n' :: Y) = none
        have ht4 : (x0 :: '\n' :: '\n' :: Y).take 4 = x0 :: '\n' :: '\n' :: Y.take 1 := rfl
        unfold hdrEndAt
        rw [ht4]
        split <;> first
          | rfl
          | (rename_i heq
             simp only [List.cons.injEq] at heq
             first
               | exact absurd heq.1 hx0r
               | exact absurd heq.1 hx0n)
      · -- two trailing characters x0 x1
        obtain ⟨x0, x1, hx0⟩ : ∃ x0 x1, X.drop j = [x0, x1] := by
          cases hxd : X.drop j with
          | nil => rw [hxd] at h2; simp at h2
          | cons a t =>
            cases t with
            | nil => rw [hxd] at h2; simp at h2
            | cons b t2 =>
              cases t2 with
              | nil => exact ⟨a, b, rfl⟩
              | cons e t3 => rw [hxd] at h2; simp at h2
        rw [hx0] at hP ⊢
        show hdrEndAt (x0 :: x1 :: '\n' :: '\n' :: Y) = none
        have hP2 : hdrEndAt [x0, x1, '\n'] = none := hP
        have ht4 : (x0 :: x1 :: '\n' :: '\n' :: Y).take 4 = [x0, x1, '\n', '\n'] := rfl
        unfold hdrEndAt
        rw [ht4]
        split <;> first
          | rfl
          | (rename_i heq
             simp only [List.cons.injEq] at heq
             first
               | exact absurd heq.2.2.1 (by decide)
               | (rw [heq.1, heq.2.1] at hP2
                  exact absurd hP2 (by decide)))
  · rw [List.drop_left]
    rfl

/-- C9 counterexample: a chunk-size line terminated by a bare LF is not
accepted.  The parser only splits chunk-size lines at CRLF (the source
comments "they really need to use CRLF"), so `1\nA\r\n...` folds the LF
and the data into the size string and raises error kind CHUNK — the body
is never delivered and the message never completes. -/
theorem C9_counterexample :
    (handleInput allowAllStart initPState
        ("x\r\nTransfer-Encoding: chunked\r\n\r\n1\nA\r\n0\r\n\r\n".toList)).2 =
      [Ev.start ("x".toList) [(("Transfer-Encoding".toList), (" chunked".toList))] []
         [("chunked".toList)] none (some true),
       Ev.err .chunk ("1\nA".toList)] ∧
    Ev.endOk ∉
      [Ev.start ("x".toList) [(("Transfer-Encoding".toList), (" chunked".toList))] []
         [("chunked".toList)] none (some true),
       Ev.err .chunk ("1\nA".toList)] := by
  exact ⟨by rfl, by decide⟩

/-- C9 as amended: (1) LF-only terminators *are* accepted for the header
block — a block terminated by LFLF is processed identically to the same
block terminated by CRLFCRLF (under the side conditions that the header
text contains no earlier terminator and does not end in a stray CR);
(2) chunk-size lines require CRLF: with a bare-LF size line the parser
folds the following bytes into the size string and raises error kind
CHUNK (see the counterexample theorem for the concrete run). -/
theorem C9_lf_handling :
    (∀ (istart : IStart) (X Y : Str),
        hdrEndSearch (X ++ ['\n']) = none →
        X.drop (X.length - 1) ≠ ['\r'] →
        hdrEndSearch (X ++ ('\r' :: '\n' :: ['\r'])) = none →
        hic istart initPState (X ++ ('\n' :: '\n' :: Y)) =
          hic istart initPState (X ++ ('\r' :: '\n' :: '\r' :: '\n' :: Y))) ∧
    (handleInput allowAllStart
        { buf := [], ist := .headersDone, delim := .dCHUNKED, bodyLeft := -1 }
        ("1\nA\r\n0\r\n\r\n".toList)).2 = [Ev.err .chunk ("1\nA".toList)] := by
  constructor
  · intro istart X Y h1 h2 h3
    rw [hic_unfold, hic_unfold]
    unfold hicStep
    dsimp only [initPState]
    rw [search_lflf_boundary X Y h1 h2, search_crlf_boundary X Y h3]
    dsimp only
    rw [List.take_left, List.take_left]
    rw [List.drop_append 2, List.drop_append 4]
    rw [show (('\n' :: '\n' :: Y) : Str).drop 2 = Y from rfl,
        show (('\r' :: '\n' :: '\r' :: '\n' :: Y) : Str).drop 4 = Y from rfl]
  · rfl

/-- Closed instance of the LFLF-equivalence half of `C9_lf_handling`
(hypotheses discharged at the header text `x`). -/
theorem C9_lf_handling_witness :
    hic allowAllStart initPState (("x".toList) ++ ('\n' :: '\n' :: [])) =
      hic allowAllStart initPState (("x".toList) ++ ('\r' :: '\n' :: '\r' :: '\n' :: [])) :=
  C9_lf_handling.1 allowAllStart ("x".toList) [] (by decide) (by decide) (by decide)

/-- Closed instance of `C2_delimitation_priority` (hypothesis discharged
at a concrete header block carrying both Transfer-Encoding and
Content-Length). -/
theorem C2_delimitation_priority_witness :
    (⟨[], .headersDone, .dCHUNKED, -1⟩ : PState).ist = .headersDone ∧
    (⟨[], .headersDone, .dCHUNKED, -1⟩ : PState).delim =
      specDelimit true [("chunked".toList)] none [] ∧
    (true = true → ∀ n : Int, (none : Option Int) = some n →
      (⟨[], .headersDone, .dCHUNKED, -1⟩ : PState).delim = .dCOUNTED ∧
      (⟨[], .headersDone, .dCHUNKED, -1⟩ : PState).bodyLeft = n) ∧
    ([("chunked".toList)] ≠ ([] : List Str) → (none : Option Int) = none) :=
  C2_delimitation_priority allowAllStart initPState
    ("x\r\nTransfer-Encoding: chunked\r\nContent-Length: 5".toList)
    ⟨[], .headersDone, .dCHUNKED, -1⟩ ("x".toList)
    [(("Transfer-Encoding".toList), (" chunked".toList)),
     (("Content-Length".toList), (" 5".toList))]
    [] [("chunked".toList)] none true (by rfl)

/-- Closed instance of `C10_content_length_handling` (hypothesis of the
second conjunct discharged at the unparseable value `abc`). -/
theorem C10_content_length_handling_witness :
    (procHeaders [("Content-Length: 5".toList)]).2.2.2 =
      firstValidCL [("Content-Length: 5".toList)] ∧
    ((procHeaders ([] ++ (("Content-Length:".toList) ++ ("abc".toList)) :: [])).2.1 =
        (procHeaders ([] ++ [])).2.1 ∧
     (procHeaders ([] ++ (("Content-Length:".toList) ++ ("abc".toList)) :: [])).2.2.1 =
        (procHeaders ([] ++ [])).2.2.1 ∧
     (procHeaders ([] ++ (("Content-Length:".toList) ++ ("abc".toList)) :: [])).2.2.2 =
        (procHeaders ([] ++ [])).2.2.2) :=
  ⟨C10_content_length_handling.1 [("Content-Length: 5".toList)],
   C10_content_length_handling.2 [] [] ("abc".toList) (by decide)⟩

/-! ## Claim C5: fragmentation invariance of `_handle_input`

The claim quantifies over well-formed HTTP messages and over ways of
fragmenting their bytes.  We build an invariant over the parser states
reachable mid-message and prove a split lemma: processing any prefix of
the remaining input and then the rest produces the same observable
callback trace as processing it at once. -/

/-! ### Observation algebra -/

theorem obsAppend_assoc (a b c : Obs) :
    obsAppend (obsAppend a b) c = obsAppend a (obsAppend b c) := by
  simp [obsAppend, List.append_assoc, Nat.add_assoc]

theorem obsAppend_nil_left (b : Obs) : obsAppend (obsOf []) b = b := by
  simp [obsOf, obsAppend]

theorem obsAppend_nil_right (a : Obs) : obsAppend a (obsOf []) = a := by
  simp [obsOf, obsAppend]

theorem obs_cons_step {e A B : List Ev} {c : Obs}
    (h : obsOf B = obsAppend (obsOf A) c) :
    obsOf (e ++ B) = obsAppend (obsOf (e ++ A)) c := by
  rw [obsOf_append, obsOf_append, h, obsAppend_assoc]

/-! ### Window lemmas for the `hdr_end` scanner -/

theorem hdrEndAt_head {c : Char} (h1 : c ≠ '\r') (h2 : c ≠ '\n') (t : Str) :
    hdrEndAt (c :: t) = none := by
  unfold hdrEndAt
  split
  all_goals first
    | rfl
    | (rename_i heq
       rw [List.take_succ_cons] at heq
       simp only [List.cons.injEq] at heq
       first
         | exact absurd heq.1 h1
         | exact absurd heq.1 h2)

theorem hdrEndAt_cr_mid {c : Char} (h1 : c ≠ '\r') (h2 : c ≠ '\n') (t : Str) :
    hdrEndAt ('\r' :: '\n' :: c :: t) = none := by
  unfold hdrEndAt
  split
  all_goals first
    | rfl
    | (rename_i heq
       simp only [List.take_succ_cons, List.cons.injEq] at heq
       first
         | exact absurd heq.1 (by decide)
         | exact absurd heq.2.2.1 h1
         | exact absurd heq.2.2.1 h2)

theorem hdrEndAt_lf_mid {c : Char} (h1 : c ≠ '\r') (h2 : c ≠ '\n') (t : Str) :
    hdrEndAt ('\n' :: c :: t) = none := by
  unfold hdrEndAt
  split
  all_goals first
    | rfl
    | (rename_i heq
       simp only [List.take_succ_cons, List.cons.injEq] at heq
       first
         | exact absurd heq.1 (by decide)
         | exact absurd heq.2.1 h1
         | exact absurd heq.2.1 h2)

theorem hdrEndAt_crlfcrlf (t : Str) :
    hdrEndAt ('\r' :: '\n' :: '\r' :: '\n' :: t) = some 4 := rfl

theorem hdrEndAt_lflf (t : Str) : hdrEndAt ('\n' :: '\n' :: t) = some 2 := rfl

theorem hdrEndAt_crlflf (t : Str) :
    hdrEndAt ('\r' :: '\n' :: '\n' :: t) = some 3 := rfl

theorem hdrEndAt_lfcrlf (t : Str) :
    hdrEndAt ('\n' :: '\r' :: '\n' :: t) = some 3 := rfl

theorem hdrEndAt_one (a : Char) : hdrEndAt [a] = none := by
  unfold hdrEndAt
  split
  all_goals first
    | rfl
    | (rename_i heq; simp at heq)

theorem hdrEndAt_two {a b : Char} (h : ¬(a = '\n' ∧ b = '\n')) :
    hdrEndAt [a, b] = none := by
  unfold hdrEndAt
  split
  · rename_i heq; simp at heq
  · rename_i heq; simp at heq
  · rename_i heq; simp at heq
  · rename_i heq
    simp only [List.take_succ_cons, List.take_nil, List.cons.injEq] at heq
    exact absurd ⟨heq.1, heq.2.1⟩ h
  · rfl

theorem hdrEndAt_three {a b c : Char}
    (h2 : ¬(a = '\n' ∧ b = '\n'))
    (h3r : ¬(a = '\r' ∧ b = '\n' ∧ c = '\n'))
    (h3n : ¬(a = '\n' ∧ b = '\r' ∧ c = '\n')) :
    hdrEndAt [a, b, c] = none := by
  unfold hdrEndAt
  split
  · rename_i heq; simp at heq
  · rename_i heq
    simp only [List.take_succ_cons, List.take_nil, List.cons.injEq] at heq
    exact absurd ⟨heq.1, heq.2.1, heq.2.2.1⟩ h3r
  · rename_i heq
    simp only [List.take_succ_cons, List.take_nil, List.cons.injEq] at heq
    exact absurd ⟨heq.1, heq.2.1, heq.2.2.1⟩ h3n
  · rename_i heq
    simp only [List.take_succ_cons, List.take_nil, List.cons.injEq] at heq
    exact absurd ⟨heq.1, heq.2.1⟩ h2
  · rfl

theorem hdrEndAt_none_of_prefix {p s : Str} (hp : p <+: s)
    (h : hdrEndAt s = none) : hdrEndAt p = none := by
  obtain ⟨t, rfl⟩ := hp
  rcases p with _ | ⟨a, _ | ⟨b, _ | ⟨c, _ | ⟨d, q⟩⟩⟩⟩
  · rfl
  · exact hdrEndAt_one a
  · apply hdrEndAt_two
    rintro ⟨rfl, rfl⟩
    rw [show (['\n', '\n'] : Str) ++ t = '\n' :: '\n' :: t from rfl,
        hdrEndAt_lflf] at h
    exact absurd h (by simp)
  · apply hdrEndAt_three
    · rintro ⟨rfl, rfl⟩
      rw [show (['\n', '\n', c] : Str) ++ t = '\n' :: '\n' :: (c :: t) from rfl,
          hdrEndAt_lflf] at h
      exact absurd h (by simp)
    · rintro ⟨rfl, rfl, rfl⟩
      rw [show (['\r', '\n', '\n'] : Str) ++ t = '\r' :: '\n' :: '\n' :: t from rfl,
          hdrEndAt_crlflf] at h
      exact absurd h (by simp)
    · rintro ⟨rfl, rfl, rfl⟩
      rw [show (['\n', '\r', '\n'] : Str) ++ t = '\n' :: '\r' :: '\n' :: t from rfl,
          hdrEndAt_lfcrlf] at h
      exact absurd h (by simp)
  · rw [hdrEndAt_congr
      (show ((a :: b :: c :: d :: q) ++ t).take 4 = (a :: b :: c :: d :: q).take 4 from by
        simp [List.take_succ_cons])] at h
    exact h

theorem hdrEndSearch_leftmost {s : Str} {i l : Nat}
    (h : hdrEndSearch s = some (i, l)) :
    ∀ j < i, hdrEndAt (s.drop j) = none := by
  induction s generalizing i l with
  | nil => simp [hdrEndSearch] at h
  | cons c t ih =>
    intro j hj
    rw [hdrEndSearch] at h
    cases hat : hdrEndAt (c :: t) with
    | some l0 =>
      rw [hat] at h
      simp only [Option.some.injEq, Prod.mk.injEq] at h
      obtain ⟨hi, -⟩ := h
      omega
    | none =>
      rw [hat] at h
      cases hs : hdrEndSearch t with
      | none => rw [hs] at h; exact absurd h (by simp)
      | some p =>
        obtain ⟨i0, l0⟩ := p
        rw [hs] at h
        simp only [Option.some.injEq, Prod.mk.injEq] at h
        obtain ⟨hi, hl⟩ := h
        cases j with
        | zero => exact hat
        | succ j0 =>
          rw [List.drop_succ_cons]
          have hrec := ih hs
          exact hrec j0 (by omega)

theorem hdrEndSearch_none_of_prefix {p s : Str} (hp : p <+: s)
    (h : hdrEndSearch s = none) : hdrEndSearch p = none := by
  rw [hdrEndSearch_eq_none_iff] at h ⊢
  intro j
  obtain ⟨t, rfl⟩ := hp
  by_cases hj : j ≤ p.length
  · exact hdrEndAt_none_of_prefix
      ⟨t, (List.drop_append_of_le_length hj).symm⟩ (h j)
  · rw [List.drop_eq_nil_of_le (by omega)]
    rfl

theorem hdrEndAt_drop_frozen {A : Str} (T : Str) {j : Nat}
    (h : j + 4 ≤ A.length) :
    hdrEndAt ((A ++ T).drop j) = hdrEndAt (A.drop j) := by
  apply hdrEndAt_congr
  rw [List.drop_append_of_le_length (by omega),
      List.take_append_of_le_length (by simp only [List.length_drop]; omega)]

/-- Extend the header-terminator search fact to an arbitrary tail after
the terminator. -/
theorem search_head_found {H : Str}
    (hG2 : hdrEndSearch (H ++ ['\r', '\n', '\r', '\n']) = some (H.length, 4))
    (T : Str) :
    hdrEndSearch (H ++ '\r' :: '\n' :: '\r' :: '\n' :: T) = some (H.length, 4) := by
  have hre : H ++ '\r' :: '\n' :: '\r' :: '\n' :: T =
      (H ++ ['\r', '\n', '\r', '\n']) ++ T := by
    simp [List.append_assoc]
  rw [hre]
  apply hdrEndSearch_intro
  · intro j hj
    rw [hdrEndAt_drop_frozen T
      (by simp only [List.length_append, List.length_cons, List.length_nil]; omega)]
    exact hdrEndSearch_leftmost hG2 j hj
  · rw [List.drop_append_of_le_length (by simp), List.drop_left]
    exact hdrEndAt_crlfcrlf T

theorem prefix_split {v r A B : Str} (h : v ++ r = A ++ B)
    (hle : A.length ≤ v.length) :
    v = A ++ v.drop A.length ∧ v.drop A.length ++ r = B := by
  have h1 : v.take A.length = A := by
    have h2 := congrArg (List.take A.length) h
    rwa [List.take_append_of_le_length hle, List.take_left] at h2
  constructor
  · conv_lhs => rw [← List.take_append_drop A.length v]
    rw [h1]
  · have h2 := congrArg (List.drop A.length) h
    rwa [List.drop_append_of_le_length hle, List.drop_left] at h2

/-! ### `splitFirst` on CRLF-structured strings -/

theorem crlf_not_prefix_cons {c : Char} (hc : c ≠ '\r') (t : Str) :
    ¬ (['\r', '\n'] : Str) <+: (c :: t) := by
  rintro ⟨u, hu⟩
  simp only [List.cons_append, List.nil_append, List.cons.injEq] at hu
  exact hc hu.1.symm

theorem splitFirst_crlf_cons :
    ∀ (X Z : Str), '\r' ∉ X →
      splitFirst ['\r', '\n'] (X ++ '\r' :: '\n' :: Z) = some (X, Z) := by
  intro X
  induction X with
  | nil =>
    intro Z hX
    rw [List.nil_append, splitFirst]
    rw [if_pos (by rw [List.isPrefixOf_iff_prefix]; exact ⟨Z, rfl⟩)]
    rfl
  | cons x X2 ih =>
    intro Z hX
    have hx : x ≠ '\r' := fun hh => hX (hh ▸ List.mem_cons_self x X2)
    have hX2 : '\r' ∉ X2 := fun hh => hX (List.mem_cons_of_mem x hh)
    rw [List.cons_append, splitFirst]
    rw [if_neg (by
      rw [List.isPrefixOf_iff_prefix]
      exact crlf_not_prefix_cons hx _)]
    rw [ih Z hX2]

theorem splitFirst_crlf_short :
    ∀ (v X : Str), '\r' ∉ X → v <+: X ++ ['\r'] →
      splitFirst ['\r', '\n'] v = none := by
  intro v
  induction v with
  | nil => intro X h1 h2; rfl
  | cons c t ih =>
    intro X hX hv
    cases X with
    | nil =>
      obtain ⟨u, hu⟩ := hv
      simp only [List.nil_append, List.cons_append, List.cons.injEq,
        List.append_eq_nil] at hu
      obtain ⟨hc, ht, -⟩ := hu
      subst hc; subst ht
      decide
    | cons x X2 =>
      obtain ⟨u, hu⟩ := hv
      simp only [List.cons_append, List.cons.injEq, List.append_assoc] at hu
      obtain ⟨hcx, htu⟩ := hu
      have hx : x ≠ '\r' := fun hh => hX (hh ▸ List.mem_cons_self x X2)
      have hX2 : '\r' ∉ X2 := fun hh => hX (List.mem_cons_of_mem x hh)
      rw [hcx, splitFirst]
      rw [if_neg (by
        rw [List.isPrefixOf_iff_prefix]
        exact crlf_not_prefix_cons hx _)]
      rw [ih X2 hX2 ⟨u, htu⟩]

theorem splitFirst_semi_none :
    ∀ (s : Str), (';' : Char) ∉ s → splitFirst [';'] s = none := by
  intro s
  induction s with
  | nil => intro h; rfl
  | cons c t ih =>
    intro h
    have hc : c ≠ ';' := fun hh => h (hh ▸ List.mem_cons_self c t)
    have ht : (';' : Char) ∉ t := fun hh => h (List.mem_cons_of_mem c hh)
    rw [splitFirst]
    rw [if_neg (by
      rw [List.isPrefixOf_iff_prefix]
      rintro ⟨u, hu⟩
      simp only [List.cons_append, List.nil_append, List.cons.injEq] at hu
      exact hc hu.1.symm)]
    rw [ih ht]

/-! ### `pyStrip` and `pyInt` helpers -/

theorem pyStrip_cons_space {c : Char} (hc : pySpace c = true) (s : Str) :
    pyStrip (c :: s) = pyStrip s := by
  unfold pyStrip
  rw [List.dropWhile_cons, if_pos hc]

theorem pyInt_cons_space {c : Char} (hc : pySpace c = true) (base : Nat)
    (s : Str) : pyInt base (c :: s) = pyInt base s := by
  unfold pyInt
  rw [pyStrip_cons_space hc]

theorem pyInt_some_strip {base : Nat} {s : Str} {n : Int}
    (h : pyInt base s = some n) : pyStrip s ≠ [] := by
  intro he
  have hn : pyInt base s = none := by
    unfold pyInt
    rw [he]
    by_cases hb : base = 16
    · simp [hb, digitsVal]
    · simp [hb, digitsVal]
  rw [hn] at h
  exact absurd h (by simp)

/-! ### Well-formed messages and mid-message parser configurations -/

/-- A well-formed chunked body stream, from the start of a chunk-size
line to the end of the message: zero or more nonempty chunks followed by
the terminal `0
` chunk and blank line.  Each size line parses in
base 16 to the chunk's data length and contains no CR and no chunk
extension. -/
inductive ChStream : Str → Prop
  | done : ChStream ['0', '\r', '\n', '\r', '\n']
  | cons (sz data rest : Str)
      (hsz : pyInt 16 sz = some (data.length : Int)) (hdata : data ≠ [])
      (hcr : '\r' ∉ sz) (hsemi : (';' : Char) ∉ sz) (hrest : ChStream rest) :
      ChStream (sz ++ '\r' :: '\n' :: (data ++ '\r' :: '\n' :: rest))

/-- A candidate HTTP message: start line and header lines (without
their CRLF terminators), and the raw body bytes. -/
structure Msg where
  top : Str
  lines : List Str
  body : Str

/-- The header text as handed to `_parse_headers` (start line and
header lines joined by CRLF, with no trailing CRLF). -/
def hdrText (m : Msg) : Str :=
  m.top ++ (m.lines.map (fun l => '\r' :: '\n' :: l)).flatten

/-- The message bytes on the wire: header text, the blank-line
terminator, then the body. -/
def msgBytes (m : Msg) : Str :=
  hdrText m ++ '\r' :: '\n' :: '\r' :: '\n' :: m.body

/-- The body shape matching each delimiter chosen by `_parse_headers`:
no body for NONE, anything for CLOSE, exactly `body_left` bytes for
COUNTED, a well-formed chunk stream for CHUNKED. -/
def bodyMatch : Delim → Int → Str → Prop
  | .dNONE, _, b => b = []
  | .dCLOSE, _, _ => True
  | .dCOUNTED, n, b => (b.length : Int) = n
  | .dCHUNKED, _, b => ChStream b
  | .dINIT, _, _ => False

/-- Well-formedness of a message for a given `_input_start` hook: the
header text contains no premature `hdr_end` match and terminates
exactly at the blank line, the hook accepts the parsed headers
(no `ValueError`), and the body bytes fit the delimiter the header
block selects. -/
def MsgWf (istart : IStart) (m : Msg) : Prop :=
  hdrEndSearch (hdrText m ++ ['\r', '\n', '\r']) = none ∧
  hdrEndSearch (hdrText m ++ ['\r', '\n', '\r', '\n']) =
    some ((hdrText m).length, 4) ∧
  (parseHeaders istart initPState (hdrText m)).2.1 = true ∧
  bodyMatch (parseHeaders istart initPState (hdrText m)).1.delim
    (parseHeaders istart initPState (hdrText m)).1.bodyLeft m.body

/-- The state with its pending buffer cleared (what `_handle_input`
works on after merging the buffer into the input). -/
def clearB (s : PState) : PState := ⟨[], s.ist, s.delim, s.bodyLeft⟩

/-- A state is quiet if feeding it no bytes produces no observable
callbacks. -/
def Quiet (istart : IStart) (s : PState) : Prop :=
  obsOf (handleInput istart s []).2 = obsOf []

/-- The mid-message parser configurations: a buffer-cleared state
together with the exact remaining input of the message.  One disjunct
per phase: collecting headers; CLOSE body; COUNTED body with `n` bytes
missing; CHUNKED waiting for a size line (with up to two characters of
the previous chunk's CRLF still unconsumed); CHUNKED inside a chunk's
data; CHUNKED before the final blank line; and the completed message. -/
def Phase (istart : IStart) (s0 : PState) (w : Str) : Prop :=
  (∃ m : Msg, MsgWf istart m ∧ s0 = initPState ∧ w = msgBytes m) ∨
  (∃ bl : Int, s0 = ⟨[], .headersDone, .dCLOSE, bl⟩) ∨
  (∃ n : Int, s0 = ⟨[], .headersDone, .dCOUNTED, n⟩ ∧
     n = (w.length : Int) ∧ 0 < n) ∨
  (∃ pre rest : Str, (pre = [] ∨ pre = ['\n'] ∨ pre = ['\r', '\n']) ∧
     ChStream rest ∧ s0 = ⟨[], .headersDone, .dCHUNKED, -1⟩ ∧ w = pre ++ rest) ∨
  (∃ dataRem rest : Str, dataRem ≠ [] ∧ ChStream rest ∧
     s0 = ⟨[], .headersDone, .dCHUNKED, (dataRem.length : Int)⟩ ∧
     w = dataRem ++ '\r' :: '\n' :: rest) ∨
  (s0 = ⟨[], .headersDone, .dCHUNKED, 0⟩ ∧ w = ['\r', '\n']) ∨
  (∃ (d : Delim) (bl : Int), s0 = ⟨[], .waiting, d, bl⟩ ∧ w = [])

theorem ChStream_ne_nil {s : Str} (h : ChStream s) : s ≠ [] := by
  cases h with
  | done => simp
  | cons sz data rest hsz hdata hcr hsemi hrest => simp

/-! ### Shape of the state produced by `_parse_headers` -/

theorem parseHeaders_shape {istart : IStart} {s : PState} {top : Str}
    {s1 : PState} {evs : List Ev}
    (h : parseHeaders istart s top = (s1, true, evs)) :
    s1.buf = s.buf ∧ s1.ist = .headersDone ∧ s1.delim ≠ .dINIT ∧
      (s1.delim = .dCHUNKED → s1.bodyLeft = -1) := by
  unfold parseHeaders at h
  cases hsl : splitlines (lwsSub top) with
  | nil =>
    rw [hsl] at h
    exact absurd (congrArg (fun p => p.2.1) h) (by simp)
  | cons topLine hlines =>
    rw [hsl] at h
    dsimp only at h
    rcases hq : procHeaders hlines with ⟨tu, co, tr, cl0⟩
    rw [hq] at h
    dsimp only at h
    cases his : istart topLine tu co tr (if tr ≠ [] then none else cl0) with
    | none =>
      rw [his] at h
      exact absurd (congrArg (fun p => p.2.1) h) (by simp)
    | some allows =>
      rw [his] at h
      dsimp only at h
      have hs1 := congrArg (fun p => p.1) h
      dsimp only at hs1
      cases allows with
      | false =>
        rw [if_pos (show (!false) = true from rfl)] at hs1
        rw [← hs1]
        exact ⟨rfl, rfl, fun hcc => Delim.noConfusion hcc,
               fun hcc => Delim.noConfusion hcc⟩
      | true =>
        rw [if_neg (show ¬((!true) = true) from by decide)] at hs1
        by_cases htr : tr ≠ []
        · rw [if_pos htr] at hs1
          by_cases hm : "chunked".toList ∈ tr
          · rw [if_pos hm] at hs1
            rw [← hs1]
            exact ⟨rfl, rfl, fun hcc => Delim.noConfusion hcc, fun _ => rfl⟩
          · rw [if_neg hm] at hs1
            rw [← hs1]
            exact ⟨rfl, rfl, fun hcc => Delim.noConfusion hcc,
                   fun hcc => Delim.noConfusion hcc⟩
        · rw [if_neg htr] at hs1
          rw [if_neg htr] at hs1
          cases hcl : cl0 with
          | some nv =>
            rw [hcl] at hs1
            dsimp only at hs1
            rw [← hs1]
            exact ⟨rfl, rfl, fun hcc => Delim.noConfusion hcc,
                   fun hcc => Delim.noConfusion hcc⟩
          | none =>
            rw [hcl] at hs1
            dsimp only at hs1
            by_cases hc : "close".toList ∈ co
            · rw [if_pos hc] at hs1
              rw [← hs1]
              exact ⟨rfl, rfl, fun hcc => Delim.noConfusion hcc,
                     fun hcc => Delim.noConfusion hcc⟩
            · rw [if_neg hc] at hs1
              rw [← hs1]
              exact ⟨rfl, rfl, fun hcc => Delim.noConfusion hcc,
                     fun hcc => Delim.noConfusion hcc⟩

/-! ### One-step evaluation lemmas for `hic` -/

theorem step_waiting_none {istart : IStart} {d : Delim} {bl : Int} {instr : Str}
    (h : hdrEndSearch instr = none) :
    hic istart ⟨[], .waiting, d, bl⟩ instr = (⟨instr, .waiting, d, bl⟩, []) := by
  rw [hic_unfold]
  unfold hicStep
  dsimp only
  rw [h]
  all_goals rfl

theorem step_waiting_found {istart : IStart} {d : Delim} {bl : Int} {instr : Str}
    {i l : Nat} {s1 : PState} {keep : Bool} {evs : List Ev}
    (hse : hdrEndSearch instr = some (i, l))
    (hp : parseHeaders istart ⟨[], .waiting, d, bl⟩ (instr.take i) = (s1, keep, evs)) :
    hic istart ⟨[], .waiting, d, bl⟩ instr =
      ((hic istart s1 (if keep then instr.drop (i + l) else [])).1,
       evs ++ (hic istart s1 (if keep then instr.drop (i + l) else [])).2) := by
  rw [hic_unfold]
  unfold hicStep
  dsimp only
  rw [hse]
  dsimp only
  rw [hp]

theorem step_close {istart : IStart} {bl : Int} (instr : Str) :
    hic istart ⟨[], .headersDone, .dCLOSE, bl⟩ instr =
      (⟨[], .headersDone, .dCLOSE, bl⟩, [Ev.body instr]) := by
  rw [hic_unfold]
  rfl

theorem step_dnone_nil {istart : IStart} {bl : Int} :
    hic istart ⟨[], .headersDone, .dNONE, bl⟩ [] =
      (⟨[], .waiting, .dNONE, bl⟩, [Ev.endOk]) := by
  rw [hic_unfold]
  rfl

theorem step_counted_exact {istart : IStart} {n : Int} {instr : Str}
    (h0 : 0 ≤ n) (hlen : n = (instr.length : Int)) :
    hic istart ⟨[], .headersDone, .dCOUNTED, n⟩ instr =
      (⟨[], .waiting, .dCOUNTED, n⟩, [Ev.body instr, Ev.endOk]) := by
  rw [hic_unfold]
  unfold hicStep
  dsimp only
  rw [if_neg (by omega), if_pos (by omega)]
  have hbl : n.toNat = instr.length := by omega
  rw [hbl, List.drop_length, List.take_length]
  rw [if_neg (by simp)]
  all_goals rfl

theorem step_counted_part {istart : IStart} {n : Int} {instr : Str}
    (h : (instr.length : Int) < n) :
    hic istart ⟨[], .headersDone, .dCOUNTED, n⟩ instr =
      (⟨[], .headersDone, .dCOUNTED, n - instr.length⟩, [Ev.body instr]) := by
  rw [hic_unfold]
  unfold hicStep
  dsimp only
  rw [if_neg (by omega), if_neg (by omega)]
  all_goals rfl

theorem step_chunk_part {istart : IStart} {n : Int} {instr : Str}
    (h0 : 0 < n) (h : (instr.length : Int) < n) :
    hic istart ⟨[], .headersDone, .dCHUNKED, n⟩ instr =
      (⟨[], .headersDone, .dCHUNKED, n - instr.length⟩, [Ev.body instr]) := by
  rw [hic_unfold]
  unfold hicStep
  dsimp only
  rw [if_pos h0, if_neg (by omega), if_neg (by omega)]
  all_goals rfl

theorem step_chunk_exact {istart : IStart} {n : Int} {instr : Str}
    (h0 : 0 < n) (h : n = (instr.length : Int)) :
    hic istart ⟨[], .headersDone, .dCHUNKED, n⟩ instr =
      (⟨[], .headersDone, .dCHUNKED, -1⟩, [Ev.body instr]) := by
  rw [hic_unfold]
  unfold hicStep
  dsimp only
  rw [if_pos h0, if_neg (by omega), if_pos h]
  all_goals rfl

theorem step_chunk_over {istart : IStart} {n : Int} {instr : Str}
    (h0 : 0 < n) (h : n < (instr.length : Int)) :
    hic istart ⟨[], .headersDone, .dCHUNKED, n⟩ instr =
      ((hic istart ⟨[], .headersDone, .dCHUNKED, -1⟩ (instr.drop (n.toNat + 2))).1,
       Ev.body (instr.take n.toNat) ::
         (hic istart ⟨[], .headersDone, .dCHUNKED, -1⟩ (instr.drop (n.toNat + 2))).2) := by
  rw [hic_unfold]
  unfold hicStep
  dsimp only
  rw [if_pos h0, if_pos (by omega)]

theorem step_chunk_new_none {istart : IStart} {instr : Str}
    (hsf : splitFirst ['\r', '\n'] instr = none) :
    hic istart ⟨[], .headersDone, .dCHUNKED, -1⟩ instr =
      (⟨instr, .headersDone, .dCHUNKED, -1⟩, []) := by
  rw [hic_unfold]
  unfold hicStep
  dsimp only
  rw [if_neg (by decide), if_neg (by decide),
      show ("\r\n".toList : Str) = ['\r', '\n'] from rfl, hsf]
  all_goals rfl

theorem step_chunk_new_blank {istart : IStart} {instr szRaw rest : Str}
    (hsf : splitFirst ['\r', '\n'] instr = some (szRaw, rest))
    (hblank : pyStrip szRaw = []) :
    hic istart ⟨[], .headersDone, .dCHUNKED, -1⟩ instr =
      hic istart ⟨[], .headersDone, .dCHUNKED, -1⟩ rest := by
  rw [hic_unfold]
  unfold hicStep
  dsimp only
  rw [if_neg (by decide), if_neg (by decide),
      show ("\r\n".toList : Str) = ['\r', '\n'] from rfl, hsf]
  dsimp only
  rw [if_pos hblank]
  all_goals rfl

theorem step_chunk_new_size {istart : IStart} {instr szRaw rest : Str} {n : Int}
    (hsf : splitFirst ['\r', '\n'] instr = some (szRaw, rest))
    (hblank : pyStrip szRaw ≠ []) (hsemi : splitFirst [';'] szRaw = none)
    (hn : pyInt 16 szRaw = some n) :
    hic istart ⟨[], .headersDone, .dCHUNKED, -1⟩ instr =
      hic istart ⟨[], .headersDone, .dCHUNKED, n⟩ rest := by
  rw [hic_unfold]
  unfold hicStep
  dsimp only
  rw [if_neg (by decide), if_neg (by decide),
      show ("\r\n".toList : Str) = ['\r', '\n'] from rfl, hsf]
  dsimp only
  rw [if_neg hblank, show (";".toList : Str) = [';'] from rfl, hsemi]
  dsimp only
  rw [hn]
  all_goals rfl

theorem step_chunk_done_buf {istart : IStart} {instr : Str}
    (h2 : ¬ (2 ≤ instr.length ∧ instr.take 2 = "\r\n".toList))
    (hse : hdrEndSearch instr = none) :
    hic istart ⟨[], .headersDone, .dCHUNKED, 0⟩ instr =
      (⟨instr, .headersDone, .dCHUNKED, 0⟩, []) := by
  rw [hic_unfold]
  unfold hicStep
  dsimp only
  rw [if_neg (by decide), if_pos rfl, if_neg h2, hse]
  all_goals rfl

theorem step_chunk_done_end {istart : IStart} {instr : Str}
    (h2 : 2 ≤ instr.length ∧ instr.take 2 = "\r\n".toList) :
    hic istart ⟨[], .headersDone, .dCHUNKED, 0⟩ instr =
      ((hic istart ⟨[], .waiting, .dCHUNKED, 0⟩ (instr.drop 2)).1,
       Ev.endOk :: (hic istart ⟨[], .waiting, .dCHUNKED, 0⟩ (instr.drop 2)).2) := by
  rw [hic_unfold]
  unfold hicStep
  dsimp only
  rw [if_neg (by decide), if_pos rfl, if_pos h2]

/-! ### Composition helpers -/

theorem handleInput_eq (istart : IStart) (s : PState) (x : Str) :
    handleInput istart s x = hic istart (clearB s) (s.buf ++ x) := rfl

theorem quiet_waiting {istart : IStart} {d : Delim} {bl : Int} {B : Str}
    (h : hdrEndSearch B = none) : Quiet istart ⟨B, .waiting, d, bl⟩ := by
  unfold Quiet
  rw [handleInput_eq]
  dsimp only [clearB]
  rw [List.append_nil, step_waiting_none h]

theorem quiet_close {istart : IStart} {bl : Int} :
    Quiet istart ⟨[], .headersDone, .dCLOSE, bl⟩ := by
  unfold Quiet
  rw [handleInput_eq]
  dsimp only [clearB]
  rw [List.append_nil, step_close]
  rfl

theorem quiet_counted {istart : IStart} {n : Int} (h : 0 < n) :
    Quiet istart ⟨[], .headersDone, .dCOUNTED, n⟩ := by
  unfold Quiet
  rw [handleInput_eq]
  dsimp only [clearB]
  rw [List.append_nil, step_counted_part (by simpa using h)]
  rfl

theorem quiet_chunk_data {istart : IStart} {n : Int} (h : 0 < n) :
    Quiet istart ⟨[], .headersDone, .dCHUNKED, n⟩ := by
  unfold Quiet
  rw [handleInput_eq]
  dsimp only [clearB]
  rw [List.append_nil, step_chunk_part h (by simpa using h)]
  rfl

theorem quiet_chunk_new {istart : IStart} {B : Str}
    (h : splitFirst ['\r', '\n'] B = none) :
    Quiet istart ⟨B, .headersDone, .dCHUNKED, -1⟩ := by
  unfold Quiet
  rw [handleInput_eq]
  dsimp only [clearB]
  rw [List.append_nil, step_chunk_new_none h]

theorem quiet_chunk_done {istart : IStart} {B : Str}
    (h2 : ¬ (2 ≤ B.length ∧ B.take 2 = "\r\n".toList))
    (hse : hdrEndSearch B = none) :
    Quiet istart ⟨B, .headersDone, .dCHUNKED, 0⟩ := by
  unfold Quiet
  rw [handleInput_eq]
  dsimp only [clearB]
  rw [List.append_nil, step_chunk_done_buf h2 hse]

theorem step_waiting_found_keep {istart : IStart} {d : Delim} {bl : Int}
    {instr : Str} {i l : Nat} {s1 : PState} {evs : List Ev}
    (hse : hdrEndSearch instr = some (i, l))
    (hp : parseHeaders istart ⟨[], .waiting, d, bl⟩ (instr.take i) = (s1, true, evs)) :
    hic istart ⟨[], .waiting, d, bl⟩ instr =
      ((hic istart s1 (instr.drop (i + l))).1,
       evs ++ (hic istart s1 (instr.drop (i + l))).2) := by
  rw [step_waiting_found hse hp]
  rfl

theorem transfer_step {istart : IStart} {s0 s1 : PState} {v v2 r : Str}
    {evs : List Ev}
    (hv : hic istart s0 v = ((hic istart s1 v2).1, evs ++ (hic istart s1 v2).2))
    (hw : hic istart s0 (v ++ r) =
      ((hic istart s1 (v2 ++ r)).1, evs ++ (hic istart s1 (v2 ++ r)).2))
    (ihPh : Phase istart (clearB (hic istart s1 v2).1) ((hic istart s1 v2).1.buf ++ r))
    (ihQ : Quiet istart (hic istart s1 v2).1)
    (ihO : obsOf (hic istart s1 (v2 ++ r)).2 =
      obsAppend (obsOf (hic istart s1 v2).2)
        (obsOf (handleInput istart (hic istart s1 v2).1 r).2)) :
    Phase istart (clearB (hic istart s0 v).1) ((hic istart s0 v).1.buf ++ r) ∧
    Quiet istart (hic istart s0 v).1 ∧
    obsOf (hic istart s0 (v ++ r)).2 =
      obsAppend (obsOf (hic istart s0 v).2)
        (obsOf (handleInput istart (hic istart s0 v).1 r).2) := by
  rw [hv, hw]
  dsimp only
  exact ⟨ihPh, ihQ, obs_cons_step ihO⟩

theorem transfer_id {istart : IStart} {s0 s1 : PState} {v v2 r : Str}
    (hv : hic istart s0 v = hic istart s1 v2)
    (hw : hic istart s0 (v ++ r) = hic istart s1 (v2 ++ r))
    (ihPh : Phase istart (clearB (hic istart s1 v2).1) ((hic istart s1 v2).1.buf ++ r))
    (ihQ : Quiet istart (hic istart s1 v2).1)
    (ihO : obsOf (hic istart s1 (v2 ++ r)).2 =
      obsAppend (obsOf (hic istart s1 v2).2)
        (obsOf (handleInput istart (hic istart s1 v2).1 r).2)) :
    Phase istart (clearB (hic istart s0 v).1) ((hic istart s0 v).1.buf ++ r) ∧
    Quiet istart (hic istart s0 v).1 ∧
    obsOf (hic istart s0 (v ++ r)).2 =
      obsAppend (obsOf (hic istart s0 v).2)
        (obsOf (handleInput istart (hic istart s0 v).1 r).2) := by
  rw [hv, hw]
  exact ⟨ihPh, ihQ, ihO⟩

/-- Where the first CRLF of a prefix of `X ++ CRLF ++ Y` falls, given
that `X` is CR-free: the split returns `X` itself and a prefix of `Y`. -/
theorem split_of_structured {v r X Y szRaw rIn : Str}
    (hX : '\r' ∉ X)
    (hw : v ++ r = X ++ '\r' :: '\n' :: Y)
    (hsf : splitFirst ['\r', '\n'] v = some (szRaw, rIn)) :
    szRaw = X ∧ v = X ++ '\r' :: '\n' :: rIn ∧ rIn ++ r = Y := by
  have hXv : X.length + 2 ≤ v.length := by
    by_contra hlt
    push_neg at hlt
    have heq2 : (X ++ ['\r']) ++ ('\n' :: Y) = v ++ r := by
      rw [hw]
      simp [List.append_assoc]
    have hspl := prefix_split heq2
      (by simp only [List.length_append, List.length_cons, List.length_nil]; omega)
    have hnone : splitFirst ['\r', '\n'] v = none :=
      splitFirst_crlf_short v X hX ⟨_, hspl.1.symm⟩
    rw [hnone] at hsf
    exact absurd hsf (by simp)
  have heq3 : v ++ r = (X ++ ['\r', '\n']) ++ Y := by
    rw [hw]
    simp [List.append_assoc]
  have hspl := prefix_split heq3
    (by simp only [List.length_append, List.length_cons, List.length_nil]; omega)
  obtain ⟨hv_eq, hu_r⟩ := hspl
  have hv2 : v = X ++ '\r' :: '\n' :: v.drop (X ++ ['\r', '\n']).length := by
    rw [hv_eq]
    simp [List.append_assoc]
  have hsf2 : splitFirst ['\r', '\n'] v =
      some (X, v.drop (X ++ ['\r', '\n']).length) := by
    conv_lhs => rw [hv2]
    exact splitFirst_crlf_cons X _ hX
  rw [hsf2] at hsf
  simp only [Option.some.injEq, Prod.mk.injEq] at hsf
  obtain ⟨h1, h2⟩ := hsf
  refine ⟨h1.symm, ?_, ?_⟩
  · rw [hv2, h2]
  · rw [← h2]
    exact hu_r

/-- After a chunk's data was consumed together with only the CR of its
trailing CRLF, the parser silently absorbs the leftover LF: Python's
`strip`/`int` discard it from the next size line. -/
theorem hic_lf_swallow {istart : IStart} {rest : Str} (hch : ChStream rest) :
    hic istart ⟨[], .headersDone, .dCHUNKED, -1⟩ ('\n' :: rest) =
      hic istart ⟨[], .headersDone, .dCHUNKED, -1⟩ rest := by
  cases hch with
  | done =>
    rw [show ('\n' :: (['0', '\r', '\n', '\r', '\n'] : Str)) =
        (['\n', '0'] : Str) ++ '\r' :: '\n' :: ['\r', '\n'] from rfl]
    rw [step_chunk_new_size
      (splitFirst_crlf_cons ['\n', '0'] ['\r', '\n'] (by decide))
      (show pyStrip ['\n', '0'] ≠ [] from by decide)
      (show splitFirst [';'] ['\n', '0'] = none from by decide)
      (show pyInt 16 ['\n', '0'] = some 0 from by decide)]
    rw [show (['0', '\r', '\n', '\r', '\n'] : Str) =
        (['0'] : Str) ++ '\r' :: '\n' :: ['\r', '\n'] from rfl]
    rw [step_chunk_new_size
      (splitFirst_crlf_cons ['0'] ['\r', '\n'] (by decide))
      (show pyStrip ['0'] ≠ [] from by decide)
      (show splitFirst [';'] ['0'] = none from by decide)
      (show pyInt 16 ['0'] = some 0 from by decide)]
  | cons sz data rest2 hsz hdata hcr hsemi hrest =>
    have hstrip : pyStrip ('\n' :: sz) ≠ [] := by
      rw [pyStrip_cons_space (by decide)]
      exact pyInt_some_strip hsz
    have hcr2 : '\r' ∉ ('\n' :: sz) := by
      intro hm
      rcases List.mem_cons.mp hm with h1 | h1
      · exact absurd h1 (by decide)
      · exact hcr h1
    have hsemi2 : (';' : Char) ∉ ('\n' :: sz) := by
      intro hm
      rcases List.mem_cons.mp hm with h1 | h1
      · exact absurd h1 (by decide)
      · exact hsemi h1
    have hn1 : pyInt 16 ('\n' :: sz) = some (data.length : Int) := by
      rw [pyInt_cons_space (by decide)]
      exact hsz
    have hsf1 : splitFirst ['\r', '\n']
        (('\n' :: sz) ++ '\r' :: '\n' :: (data ++ '\r' :: '\n' :: rest2)) =
        some ('\n' :: sz, data ++ '\r' :: '\n' :: rest2) :=
      splitFirst_crlf_cons _ _ hcr2
    have hsf2 : splitFirst ['\r', '\n']
        (sz ++ '\r' :: '\n' :: (data ++ '\r' :: '\n' :: rest2)) =
        some (sz, data ++ '\r' :: '\n' :: rest2) :=
      splitFirst_crlf_cons _ _ hcr
    rw [show ('\n' :: (sz ++ '\r' :: '\n' :: (data ++ '\r' :: '\n' :: rest2))) =
        ('\n' :: sz) ++ '\r' :: '\n' :: (data ++ '\r' :: '\n' :: rest2) from rfl]
    rw [step_chunk_new_size hsf1 hstrip (splitFirst_semi_none _ hsemi2) hn1,
        step_chunk_new_size hsf2 (pyInt_some_strip hsz)
          (splitFirst_semi_none _ hsemi) hsz]

/-! ### The split lemma: one `_handle_input` call on a prefix, then the rest -/

theorem hsplit (istart : IStart) :
    ∀ (n : Nat) (v r : Str) (s0 : PState), v.length ≤ n →
      Phase istart s0 (v ++ r) →
      Phase istart (clearB (hic istart s0 v).1) ((hic istart s0 v).1.buf ++ r) ∧
      Quiet istart (hic istart s0 v).1 ∧
      obsOf (hic istart s0 (v ++ r)).2 =
        obsAppend (obsOf (hic istart s0 v).2)
          (obsOf (handleInput istart (hic istart s0 v).1 r).2) := by
  intro n
  induction n using Nat.strong_induction_on with
  | _ n ih =>
  intro v r s0 hlen hph
  unfold Phase at hph
  rcases hph with ⟨m, hwf, rfl, hw⟩ | ⟨bl, rfl⟩ | ⟨cn, rfl, hn, hnpos⟩ |
    ⟨pre, rest, hpre, hch, rfl, hw⟩ | ⟨dataRem, rest, hdne, hch, rfl, hw⟩ |
    ⟨rfl, hw⟩ | ⟨d, bl, rfl, hw⟩
  -- ── Case 1: collecting headers ──
  · obtain ⟨hG1, hG2, hkeepF, hbodyF⟩ := hwf
    by_cases hvs : v.length ≤ (hdrText m).length + 3
    · -- the chunk ends inside the header section: buffer it
      have hmb3 : (hdrText m ++ ['\r', '\n', '\r']) ++ ('\n' :: m.body) = v ++ r := by
        rw [hw]
        show _ = msgBytes m
        simp [msgBytes, List.append_assoc]
      have hsp := prefix_split hmb3
        (by simp only [List.length_append, List.length_cons, List.length_nil]; omega)
      have hse : hdrEndSearch v = none :=
        hdrEndSearch_none_of_prefix ⟨_, hsp.1.symm⟩ hG1
      rw [show (initPState : PState) = ⟨[], .waiting, .dINIT, 0⟩ from rfl,
          step_waiting_none hse]
      dsimp only
      refine ⟨?_, ?_, ?_⟩
      · dsimp only [clearB]
        unfold Phase
        exact Or.inl ⟨m, ⟨hG1, hG2, hkeepF, hbodyF⟩, rfl, hw⟩
      · exact quiet_waiting hse
      · rw [handleInput_eq]
        dsimp only [clearB]
        rw [obsAppend_nil_left]
    · -- the chunk reaches past the header terminator
      push_neg at hvs
      have hmb4 : v ++ r = (hdrText m ++ ['\r', '\n', '\r', '\n']) ++ m.body := by
        rw [hw]
        simp [msgBytes, List.append_assoc]
      have hsp := prefix_split hmb4
        (by simp only [List.length_append, List.length_cons, List.length_nil]; omega)
      obtain ⟨hv_eq, hbv_r⟩ := hsp
      set bv := v.drop (hdrText m ++ ['\r', '\n', '\r', '\n']).length with hbvdef
      have hlen4 : (hdrText m ++ ['\r', '\n', '\r', '\n']).length =
          (hdrText m).length + 4 := by
        simp
      have hfound_v : hdrEndSearch v = some ((hdrText m).length, 4) := by
        conv_lhs => rw [hv_eq]
        rw [show (hdrText m ++ ['\r', '\n', '\r', '\n']) ++ bv =
            hdrText m ++ '\r' :: '\n' :: '\r' :: '\n' :: bv from by
          simp [List.append_assoc]]
        exact search_head_found hG2 bv
      have hfound_w : hdrEndSearch (v ++ r) = some ((hdrText m).length, 4) := by
        rw [hw]
        exact search_head_found hG2 m.body
      have htake_v : v.take (hdrText m).length = hdrText m := by
        conv_lhs => rw [hv_eq]
        rw [show (hdrText m ++ ['\r', '\n', '\r', '\n']) ++ bv =
            hdrText m ++ (['\r', '\n', '\r', '\n'] ++ bv) from by
          simp [List.append_assoc]]
        exact List.take_left _ _
      have htake_w : (v ++ r).take (hdrText m).length = hdrText m := by
        rw [hw, show msgBytes m = hdrText m ++
          ('\r' :: '\n' :: '\r' :: '\n' :: m.body) from rfl]
        exact List.take_left _ _
      have hdrop_v : v.drop ((hdrText m).length + 4) = bv := by
        rw [← hlen4, ← hbvdef]
      have hdrop_w : (v ++ r).drop ((hdrText m).length + 4) = bv ++ r := by
        rw [hmb4, ← hlen4, List.drop_left]
        exact hbv_r.symm
      rcases hP : parseHeaders istart initPState (hdrText m) with ⟨s1, keep, evs⟩
      rw [hP] at hkeepF hbodyF
      dsimp only at hkeepF hbodyF
      subst hkeepF
      obtain ⟨hbuf, hist, hne, hchk⟩ := parseHeaders_shape hP
      have hstep_v : hic istart initPState v =
          ((hic istart s1 bv).1, evs ++ (hic istart s1 bv).2) := by
        rw [show (initPState : PState) = ⟨[], .waiting, .dINIT, 0⟩ from rfl]
        rw [step_waiting_found_keep hfound_v
          (by rw [htake_v,
                show (⟨[], .waiting, .dINIT, 0⟩ : PState) = initPState from rfl]
              exact hP)]
        rw [hdrop_v]
      have hstep_w : hic istart initPState (v ++ r) =
          ((hic istart s1 (bv ++ r)).1, evs ++ (hic istart s1 (bv ++ r)).2) := by
        rw [show (initPState : PState) = ⟨[], .waiting, .dINIT, 0⟩ from rfl]
        rw [step_waiting_found_keep hfound_w
          (by rw [htake_w,
                show (⟨[], .waiting, .dINIT, 0⟩ : PState) = initPState from rfl]
              exact hP)]
        rw [hdrop_w]
      have hbvlen : v.length = (hdrText m).length + 4 + bv.length := by
        conv_lhs => rw [hv_eq]
        simp only [List.length_append, List.length_cons, List.length_nil]
      obtain ⟨b1, i1, d1, bl1⟩ := s1
      have hb1 : b1 = [] := hbuf
      have hi1 : i1 = .headersDone := hist
      subst hb1
      subst hi1
      cases d1 with
      | dINIT => exact absurd rfl hne
      | dNONE =>
        have hbody : m.body = [] := hbodyF
        have hbvnil : bv ++ r = [] := by rw [hbv_r, hbody]
        obtain ⟨hbv0, hr0⟩ := List.append_eq_nil.mp hbvnil
        subst hr0
        simp only [hbv0, List.append_nil] at hstep_v hstep_w
        rw [step_dnone_nil] at hstep_v hstep_w
        dsimp only at hstep_v hstep_w
        simp only [List.append_nil]
        rw [hstep_v]
        dsimp only
        refine ⟨?_, ?_, ?_⟩
        · dsimp only [clearB]
          unfold Phase
          exact Or.inr (Or.inr (Or.inr (Or.inr (Or.inr (Or.inr
            ⟨.dNONE, bl1, rfl, rfl⟩)))))
        · exact quiet_waiting rfl
        · rw [handleInput_eq]
          dsimp only [clearB]
          rw [show (([] : Str) ++ []) = [] from rfl, step_waiting_none (show hdrEndSearch ([] : Str) = none from rfl)]
          dsimp only
          rw [obsAppend_nil_right]
      | dCLOSE =>
        have hlt : bv.length < n := by omega
        have hres := ih bv.length hlt bv r ⟨[], .headersDone, .dCLOSE, bl1⟩
          (le_refl _) (by unfold Phase; exact Or.inr (Or.inl ⟨bl1, rfl⟩))
        exact transfer_step hstep_v hstep_w hres.1 hres.2.1 hres.2.2
      | dCOUNTED =>
        have hbody : (m.body.length : Int) = bl1 := hbodyF
        by_cases hz : bl1 = 0
        · subst hz
          have hbnil : m.body = [] :=
            List.eq_nil_of_length_eq_zero (by exact_mod_cast hbody)
          have hbvnil : bv ++ r = [] := by rw [hbv_r, hbnil]
          obtain ⟨hbv0, hr0⟩ := List.append_eq_nil.mp hbvnil
          subst hr0
          simp only [hbv0, List.append_nil] at hstep_v hstep_w
          rw [step_counted_exact (le_refl 0) (by simp)] at hstep_v hstep_w
          dsimp only at hstep_v hstep_w
          simp only [List.append_nil]
          rw [hstep_v]
          dsimp only
          refine ⟨?_, ?_, ?_⟩
          · dsimp only [clearB]
            unfold Phase
            exact Or.inr (Or.inr (Or.inr (Or.inr (Or.inr (Or.inr
              ⟨.dCOUNTED, 0, rfl, rfl⟩)))))
          · exact quiet_waiting rfl
          · rw [handleInput_eq]
            dsimp only [clearB]
            rw [show (([] : Str) ++ []) = [] from rfl, step_waiting_none (show hdrEndSearch ([] : Str) = none from rfl)]
            dsimp only
            rw [obsAppend_nil_right]
        · have hpos : 0 < bl1 := by omega
          have hlt : bv.length < n := by omega
          have hlenw : bl1 = ((bv ++ r).length : Int) := by
            rw [hbv_r]
            exact hbody.symm
          have hres := ih bv.length hlt bv r ⟨[], .headersDone, .dCOUNTED, bl1⟩
            (le_refl _) (by unfold Phase; exact Or.inr (Or.inr (Or.inl ⟨bl1, rfl, hlenw, hpos⟩)))
          exact transfer_step hstep_v hstep_w hres.1 hres.2.1 hres.2.2
      | dCHUNKED =>
        have hbl1 : bl1 = -1 := hchk rfl
        subst hbl1
        have hbody : ChStream m.body := hbodyF
        have hlt : bv.length < n := by omega
        have hres := ih bv.length hlt bv r ⟨[], .headersDone, .dCHUNKED, -1⟩
          (le_refl _) (by unfold Phase; exact Or.inr (Or.inr (Or.inr (Or.inl ⟨[], m.body, Or.inl rfl, hbody, rfl, by rw [List.nil_append]; exact hbv_r⟩))))
        exact transfer_step hstep_v hstep_w hres.1 hres.2.1 hres.2.2
  -- ── Case 2: CLOSE-delimited body ──
  · rw [step_close v, step_close (v ++ r)]
    dsimp only
    refine ⟨?_, ?_, ?_⟩
    · dsimp only [clearB]
      unfold Phase
      exact Or.inr (Or.inl ⟨bl, rfl⟩)
    · exact quiet_close
    · rw [handleInput_eq]
      dsimp only [clearB]
      rw [show (([] : Str) ++ r) = r from rfl, step_close r]
      dsimp only
      simp [obsOf, obsAppend]
  -- ── Case 3: COUNTED body ──
  · by_cases hr : r = []
    · subst hr
      simp only [List.append_nil] at hn ⊢
      rw [step_counted_exact (by omega) hn]
      dsimp only
      refine ⟨?_, ?_, ?_⟩
      · dsimp only [clearB]
        unfold Phase
        exact Or.inr (Or.inr (Or.inr (Or.inr (Or.inr (Or.inr
          ⟨.dCOUNTED, cn, rfl, rfl⟩)))))
      · exact quiet_waiting rfl
      · rw [handleInput_eq]
        dsimp only [clearB]
        rw [show (([] : Str) ++ []) = [] from rfl, step_waiting_none (show hdrEndSearch ([] : Str) = none from rfl)]
        dsimp only
        rw [obsAppend_nil_right]
    · have hrlen : 0 < r.length := List.length_pos.mpr hr
      have hvlt : (v.length : Int) < cn := by
        have hn2 := hn
        simp only [List.length_append] at hn2
        omega
      rw [step_counted_part hvlt, step_counted_exact (by omega) hn]
      dsimp only
      refine ⟨?_, ?_, ?_⟩
      · dsimp only [clearB]
        unfold Phase
        refine Or.inr (Or.inr (Or.inl ⟨cn - v.length, rfl, ?_, by omega⟩))
        have hn2 := hn
        simp only [List.length_append] at hn2
        simp only [List.nil_append]
        omega
      · exact quiet_counted (by omega)
      · rw [handleInput_eq]
        dsimp only [clearB]
        rw [show (([] : Str) ++ r) = r from rfl]
        rw [step_counted_exact (by omega)
          (by have hn2 := hn
              simp only [List.length_append] at hn2
              omega)]
        dsimp only
        simp [obsOf, obsAppend]
  -- ── Case 4: CHUNKED, expecting a size line ──
  · cases hsf : splitFirst ['\r', '\n'] v with
    | none =>
      rw [step_chunk_new_none hsf]
      dsimp only
      refine ⟨?_, ?_, ?_⟩
      · dsimp only [clearB]
        unfold Phase
        exact Or.inr (Or.inr (Or.inr (Or.inl ⟨pre, rest, hpre, hch, rfl, hw⟩)))
      · exact quiet_chunk_new hsf
      · rw [handleInput_eq]
        dsimp only [clearB]
        rw [obsAppend_nil_left]
    | some p =>
      obtain ⟨szRaw, rIn⟩ := p
      rcases hpre with rfl | rfl | rfl
      · -- no leftover CRLF characters
        cases hch with
        | done =>
          have hw2 : v ++ r = (['0'] : Str) ++ '\r' :: '\n' :: ['\r', '\n'] := by
            rw [hw]
            rfl
          obtain ⟨hsz_eq, hv_eq, hu_r⟩ := split_of_structured (by decide) hw2 hsf
          subst hsz_eq
          have hstep_v : hic istart ⟨[], .headersDone, .dCHUNKED, -1⟩ v =
              hic istart ⟨[], .headersDone, .dCHUNKED, 0⟩ rIn :=
            step_chunk_new_size hsf (by decide) (by decide)
              (show pyInt 16 ['0'] = some 0 from by decide)
          have hstep_w : hic istart ⟨[], .headersDone, .dCHUNKED, -1⟩ (v ++ r) =
              hic istart ⟨[], .headersDone, .dCHUNKED, 0⟩ (rIn ++ r) := by
            rw [hw2]
            rw [step_chunk_new_size (splitFirst_crlf_cons ['0'] _ (by decide))
              (by decide) (by decide) (show pyInt 16 ['0'] = some 0 from by decide)]
            rw [← hu_r]
          have hlt : rIn.length < n := by
            have hvv := congrArg List.length hv_eq
            simp only [List.length_append, List.length_cons, List.length_nil] at hvv
            omega
          have hres := ih rIn.length hlt rIn r ⟨[], .headersDone, .dCHUNKED, 0⟩
            (le_refl _) (by unfold Phase; exact Or.inr (Or.inr (Or.inr (Or.inr (Or.inr (Or.inl ⟨rfl, hu_r⟩))))))
          exact transfer_id hstep_v hstep_w hres.1 hres.2.1 hres.2.2
        | cons sz data rest2 hsz hdata hcr hsemi hrest =>
          have hw2 : v ++ r = sz ++ '\r' :: '\n' :: (data ++ '\r' :: '\n' :: rest2) := by
            rw [hw]
            rfl
          obtain ⟨hsz_eq, hv_eq, hu_r⟩ := split_of_structured hcr hw2 hsf
          subst hsz_eq
          have hstep_v : hic istart ⟨[], .headersDone, .dCHUNKED, -1⟩ v =
              hic istart ⟨[], .headersDone, .dCHUNKED, (data.length : Int)⟩ rIn :=
            step_chunk_new_size hsf (pyInt_some_strip hsz)
              (splitFirst_semi_none _ hsemi) hsz
          have hstep_w : hic istart ⟨[], .headersDone, .dCHUNKED, -1⟩ (v ++ r) =
              hic istart ⟨[], .headersDone, .dCHUNKED, (data.length : Int)⟩ (rIn ++ r) := by
            rw [hw2]
            rw [step_chunk_new_size (splitFirst_crlf_cons szRaw _ hcr)
              (pyInt_some_strip hsz) (splitFirst_semi_none _ hsemi) hsz]
            rw [← hu_r]
          have hlt : rIn.length < n := by
            have hvv := congrArg List.length hv_eq
            simp only [List.length_append, List.length_cons] at hvv
            omega
          have hres := ih rIn.length hlt rIn r
            ⟨[], .headersDone, .dCHUNKED, (data.length : Int)⟩
            (le_refl _) (by unfold Phase; exact Or.inr (Or.inr (Or.inr (Or.inr (Or.inl ⟨data, rest2, hdata, hrest, rfl, hu_r⟩)))))
          exact transfer_id hstep_v hstep_w hres.1 hres.2.1 hres.2.2
      · -- a leftover LF from the previous chunk's CRLF
        cases hch with
        | done =>
          have hw2 : v ++ r = (['\n', '0'] : Str) ++ '\r' :: '\n' :: ['\r', '\n'] := by
            rw [hw]
            rfl
          obtain ⟨hsz_eq, hv_eq, hu_r⟩ := split_of_structured (by decide) hw2 hsf
          subst hsz_eq
          have hstep_v : hic istart ⟨[], .headersDone, .dCHUNKED, -1⟩ v =
              hic istart ⟨[], .headersDone, .dCHUNKED, 0⟩ rIn :=
            step_chunk_new_size hsf (by decide) (by decide)
              (show pyInt 16 ['\n', '0'] = some 0 from by decide)
          have hstep_w : hic istart ⟨[], .headersDone, .dCHUNKED, -1⟩ (v ++ r) =
              hic istart ⟨[], .headersDone, .dCHUNKED, 0⟩ (rIn ++ r) := by
            rw [hw2]
            rw [step_chunk_new_size (splitFirst_crlf_cons ['\n', '0'] _ (by decide))
              (by decide) (by decide)
              (show pyInt 16 ['\n', '0'] = some 0 from by decide)]
            rw [← hu_r]
          have hlt : rIn.length < n := by
            have hvv := congrArg List.length hv_eq
            simp only [List.length_append, List.length_cons, List.length_nil] at hvv
            omega
          have hres := ih rIn.length hlt rIn r ⟨[], .headersDone, .dCHUNKED, 0⟩
            (le_refl _) (by unfold Phase; exact Or.inr (Or.inr (Or.inr (Or.inr (Or.inr (Or.inl ⟨rfl, hu_r⟩))))))
          exact transfer_id hstep_v hstep_w hres.1 hres.2.1 hres.2.2
        | cons sz data rest2 hsz hdata hcr hsemi hrest =>
          have hX : '\r' ∉ ('\n' :: sz) := by
            intro hm
            rcases List.mem_cons.mp hm with h1 | h1
            · exact absurd h1 (by decide)
            · exact hcr h1
          have hsemi2 : (';' : Char) ∉ ('\n' :: sz) := by
            intro hm
            rcases List.mem_cons.mp hm with h1 | h1
            · exact absurd h1 (by decide)
            · exact hsemi h1
          have hstrip : pyStrip ('\n' :: sz) ≠ [] := by
            rw [pyStrip_cons_space (by decide)]
            exact pyInt_some_strip hsz
          have hn1 : pyInt 16 ('\n' :: sz) = some (data.length : Int) := by
            rw [pyInt_cons_space (by decide)]
            exact hsz
          have hw2 : v ++ r =
              ('\n' :: sz) ++ '\r' :: '\n' :: (data ++ '\r' :: '\n' :: rest2) := by
            rw [hw]
            rfl
          obtain ⟨hsz_eq, hv_eq, hu_r⟩ := split_of_structured hX hw2 hsf
          subst hsz_eq
          have hstep_v : hic istart ⟨[], .headersDone, .dCHUNKED, -1⟩ v =
              hic istart ⟨[], .headersDone, .dCHUNKED, (data.length : Int)⟩ rIn :=
            step_chunk_new_size hsf hstrip (splitFirst_semi_none _ hsemi2) hn1
          have hstep_w : hic istart ⟨[], .headersDone, .dCHUNKED, -1⟩ (v ++ r) =
              hic istart ⟨[], .headersDone, .dCHUNKED, (data.length : Int)⟩ (rIn ++ r) := by
            rw [hw2]
            rw [step_chunk_new_size (splitFirst_crlf_cons ('\n' :: sz) _ hX)
              hstrip (splitFirst_semi_none _ hsemi2) hn1]
            rw [← hu_r]
          have hlt : rIn.length < n := by
            have hvv := congrArg List.length hv_eq
            simp only [List.length_append, List.length_cons] at hvv
            omega
          have hres := ih rIn.length hlt rIn r
            ⟨[], .headersDone, .dCHUNKED, (data.length : Int)⟩
            (le_refl _) (by unfold Phase; exact Or.inr (Or.inr (Or.inr (Or.inr (Or.inl ⟨data, rest2, hdata, hrest, rfl, hu_r⟩)))))
          exact transfer_id hstep_v hstep_w hres.1 hres.2.1 hres.2.2
      · -- a whole leftover CRLF: the blank-line path
        have hw2 : v ++ r = ([] : Str) ++ '\r' :: '\n' :: rest := by
          rw [hw]
          rfl
        obtain ⟨hsz_eq, hv_eq, hu_r⟩ := split_of_structured (by decide) hw2 hsf
        subst hsz_eq
        have hstep_v : hic istart ⟨[], .headersDone, .dCHUNKED, -1⟩ v =
            hic istart ⟨[], .headersDone, .dCHUNKED, -1⟩ rIn :=
          step_chunk_new_blank hsf rfl
        have hstep_w : hic istart ⟨[], .headersDone, .dCHUNKED, -1⟩ (v ++ r) =
            hic istart ⟨[], .headersDone, .dCHUNKED, -1⟩ (rIn ++ r) := by
          rw [hw2, show (([] : Str) ++ '\r' :: '\n' :: rest) = '\r' :: '\n' :: rest
            from rfl]
          rw [step_chunk_new_blank
            (show splitFirst ['\r', '\n'] ('\r' :: '\n' :: rest) = some ([], rest)
              from splitFirst_crlf_cons [] rest (by decide)) rfl]
          rw [← hu_r]
        have hlt : rIn.length < n := by
          have hvv := congrArg List.length hv_eq
          simp only [List.length_append, List.length_cons, List.length_nil] at hvv
          omega
        have hres := ih rIn.length hlt rIn r ⟨[], .headersDone, .dCHUNKED, -1⟩
          (le_refl _) (by unfold Phase; exact Or.inr (Or.inr (Or.inr (Or.inl ⟨[], rest, Or.inl rfl, hch, rfl, by rw [List.nil_append]; exact hu_r⟩))))
        exact transfer_id hstep_v hstep_w hres.1 hres.2.1 hres.2.2
  -- ── Case 5: CHUNKED, inside a chunk's data ──
  · have hdpos : 0 < (dataRem.length : Int) := by
      have := List.length_pos.mpr hdne
      omega
    rcases Nat.lt_trichotomy v.length dataRem.length with hvd | hvd | hvd
    · -- partial data
      have hsp := prefix_split hw.symm (le_of_lt hvd)
      obtain ⟨hd_eq, hu_r⟩ := hsp
      set u := dataRem.drop v.length with hudef
      have hulen : dataRem.length = v.length + u.length := by
        conv_lhs => rw [hd_eq]
        simp
      have hupos : 0 < u.length := by
        rw [hudef]
        simp only [List.length_drop]
        omega
      have hune : u ≠ [] := List.length_pos.mp hupos
      have hvlt : (v.length : Int) < (dataRem.length : Int) := by exact_mod_cast hvd
      have hlenw : ((dataRem.length : Int)) < ((v ++ r).length : Int) := by
        have hlw := congrArg List.length hw
        simp only [List.length_append, List.length_cons] at hlw ⊢
        omega
      have htoNat : ((dataRem.length : Int)).toNat = dataRem.length :=
        Int.toNat_natCast _
      have htake_w : (v ++ r).take dataRem.length = dataRem := by
        rw [hw, show dataRem ++ '\r' :: '\n' :: rest =
          dataRem ++ ('\r' :: '\n' :: rest) from rfl]
        exact List.take_left _ _
      have hdrop_w : (v ++ r).drop (dataRem.length + 2) = rest := by
        rw [hw, show dataRem ++ '\r' :: '\n' :: rest =
          (dataRem ++ ['\r', '\n']) ++ rest from by simp,
          show dataRem.length + 2 = (dataRem ++ ['\r', '\n']).length from by simp]
        exact List.drop_left _ _
      rw [step_chunk_part hdpos hvlt,
          step_chunk_over hdpos hlenw, htoNat, htake_w, hdrop_w]
      dsimp only
      refine ⟨?_, ?_, ?_⟩
      · dsimp only [clearB]
        unfold Phase
        refine Or.inr (Or.inr (Or.inr (Or.inr (Or.inl
          ⟨u, rest, hune, hch, ?_, ?_⟩))))
        · have heq : (dataRem.length : Int) - v.length = (u.length : Int) := by omega
          rw [heq]
        · rw [List.nil_append]
          exact hu_r.symm
      · exact quiet_chunk_data (by omega)
      · rw [handleInput_eq]
        dsimp only [clearB]
        rw [show (([] : Str) ++ r) = r from rfl]
        have hbl_u : (dataRem.length : Int) - v.length = (u.length : Int) := by omega
        rw [hbl_u]
        have hupos2 : 0 < (u.length : Int) := by omega
        have hrlen : ((u.length : Int)) < (r.length : Int) := by
          have := congrArg List.length hu_r
          simp only [List.length_append, List.length_cons] at this
          omega
        rw [step_chunk_over hupos2 hrlen]
        have htoNat2 : ((u.length : Int)).toNat = u.length := Int.toNat_natCast _
        have htake2 : r.take u.length = u := by
          rw [← hu_r, show u ++ '\r' :: '\n' :: rest =
            u ++ ('\r' :: '\n' :: rest) from rfl]
          exact List.take_left _ _
        have hdrop2 : r.drop (u.length + 2) = rest := by
          rw [← hu_r, show u ++ '\r' :: '\n' :: rest =
            (u ++ ['\r', '\n']) ++ rest from by simp,
            show u.length + 2 = (u ++ ['\r', '\n']).length from by simp]
          exact List.drop_left _ _
        rw [htoNat2, htake2, hdrop2]
        dsimp only
        rw [show dataRem = v ++ u from hd_eq]
        simp [obsOf, obsAppend, List.append_assoc]
    · -- exactly the data
      have hveq : v = dataRem := by
        have h1 := congrArg (List.take v.length) hw
        rw [List.take_append_of_le_length (le_refl _), List.take_length] at h1
        rw [hvd, show dataRem ++ '\r' :: '\n' :: rest =
          dataRem ++ ('\r' :: '\n' :: rest) from rfl, List.take_left] at h1
        exact h1
      subst hveq
      have hr : r = '\r' :: '\n' :: rest := List.append_cancel_left hw
      subst hr
      have hlenw : ((v.length : Int)) <
          ((v ++ '\r' :: '\n' :: rest).length : Int) := by
        simp only [List.length_append, List.length_cons]
        omega
      have htoNat : ((v.length : Int)).toNat = v.length :=
        Int.toNat_natCast _
      have htake_w : (v ++ '\r' :: '\n' :: rest).take v.length =
          v := by
        rw [show v ++ '\r' :: '\n' :: rest =
          v ++ ('\r' :: '\n' :: rest) from rfl]
        exact List.take_left _ _
      have hdrop_w : (v ++ '\r' :: '\n' :: rest).drop (v.length + 2) =
          rest := by
        rw [show v ++ '\r' :: '\n' :: rest =
          (v ++ ['\r', '\n']) ++ rest from by simp,
          show v.length + 2 = (v ++ ['\r', '\n']).length from by simp]
        exact List.drop_left _ _
      rw [step_chunk_exact hdpos rfl, step_chunk_over hdpos hlenw, htoNat,
          htake_w, hdrop_w]
      dsimp only
      refine ⟨?_, ?_, ?_⟩
      · dsimp only [clearB]
        unfold Phase
        exact Or.inr (Or.inr (Or.inr (Or.inl
          ⟨['\r', '\n'], rest, Or.inr (Or.inr rfl), hch, rfl, rfl⟩)))
      · exact quiet_chunk_new rfl
      · rw [handleInput_eq]
        dsimp only [clearB]
        rw [show (([] : Str) ++ '\r' :: '\n' :: rest) = '\r' :: '\n' :: rest
          from rfl]
        rw [step_chunk_new_blank
          (show splitFirst ['\r', '\n'] ('\r' :: '\n' :: rest) = some ([], rest)
            from splitFirst_crlf_cons [] rest (by decide)) rfl]
        exact obsOf_append [Ev.body v] _
    · -- past the data and into (or past) the trailing CRLF
      have hsp := prefix_split hw (le_of_lt hvd)
      obtain ⟨hv_eq, ht_r⟩ := hsp
      have hvlen : ((dataRem.length : Int)) < (v.length : Int) := by
        exact_mod_cast hvd
      have htoNat : ((dataRem.length : Int)).toNat = dataRem.length :=
        Int.toNat_natCast _
      have htake_v : v.take dataRem.length = dataRem := by
        conv_lhs => rw [hv_eq]
        exact List.take_left _ _
      have hlenw : ((dataRem.length : Int)) < ((v ++ r).length : Int) := by
        simp only [List.length_append]
        omega
      have htake_w : (v ++ r).take dataRem.length = dataRem := by
        rw [hw, show dataRem ++ '\r' :: '\n' :: rest =
          dataRem ++ ('\r' :: '\n' :: rest) from rfl]
        exact List.take_left _ _
      have hdrop_w : (v ++ r).drop (dataRem.length + 2) = rest := by
        rw [hw, show dataRem ++ '\r' :: '\n' :: rest =
          (dataRem ++ ['\r', '\n']) ++ rest from by simp,
          show dataRem.length + 2 = (dataRem ++ ['\r', '\n']).length from by simp]
        exact List.drop_left _ _
      have hdrop_v : v.drop (dataRem.length + 2) = (v.drop dataRem.length).drop 2 := by
        conv_lhs => rw [hv_eq]
        exact List.drop_append 2
      rw [step_chunk_over hdpos hvlen, step_chunk_over hdpos hlenw, htoNat,
          htake_v, htake_w, hdrop_w, hdrop_v]
      cases hdt : v.drop dataRem.length with
      | nil =>
        exfalso
        have hvv := congrArg List.length hdt
        simp only [List.length_drop, List.length_nil] at hvv
        omega
      | cons tc t2 =>
        rw [hdt] at ht_r
        simp only [List.cons_append, List.cons.injEq] at ht_r
        obtain ⟨rfl, ht2r⟩ := ht_r
        cases t2 with
        | nil =>
          simp only [List.nil_append] at ht2r
          subst ht2r
          simp only [List.drop_succ_cons, List.drop_nil]
          rw [step_chunk_new_none (show splitFirst ['\r', '\n'] [] = none from rfl)]
          dsimp only
          refine ⟨?_, ?_, ?_⟩
          · dsimp only [clearB]
            unfold Phase
            exact Or.inr (Or.inr (Or.inr (Or.inl
              ⟨['\n'], rest, Or.inr (Or.inl rfl), hch, rfl, rfl⟩)))
          · exact quiet_chunk_new rfl
          · rw [handleInput_eq]
            dsimp only [clearB]
            rw [show (([] : Str) ++ '\n' :: rest) = '\n' :: rest from rfl,
                hic_lf_swallow hch]
            exact obsOf_append [Ev.body dataRem] _
        | cons tc2 t3 =>
          simp only [List.cons_append, List.cons.injEq] at ht2r
          obtain ⟨rfl, ht3r⟩ := ht2r
          simp only [List.drop_succ_cons, List.drop_zero]
          rw [← ht3r]
          have hlt : t3.length < n := by
            have hvv := congrArg List.length hdt
            simp only [List.length_drop, List.length_cons] at hvv
            omega
          have hres := ih t3.length hlt t3 r ⟨[], .headersDone, .dCHUNKED, -1⟩
            (le_refl _) (by unfold Phase; exact Or.inr (Or.inr (Or.inr (Or.inl ⟨[], rest, Or.inl rfl, hch, rfl, by rw [List.nil_append]; exact ht3r⟩))))
          exact ⟨hres.1, hres.2.1, @obs_cons_step [Ev.body dataRem] _ _ _ hres.2.2⟩
  -- ── Case 6: CHUNKED, before the final blank line ──
  · rcases v with _ | ⟨c1, vt⟩
    · have hr : r = ['\r', '\n'] := by simpa using hw
      rw [show (([] : Str) ++ r) = r from rfl]
      rw [step_chunk_done_buf
        (show ¬ (2 ≤ ([] : Str).length ∧ ([] : Str).take 2 = "\r\n".toList)
          from by decide) rfl]
      dsimp only
      refine ⟨?_, ?_, ?_⟩
      · dsimp only [clearB]
        unfold Phase
        refine Or.inr (Or.inr (Or.inr (Or.inr (Or.inr (Or.inl ⟨rfl, ?_⟩)))))
        rw [List.nil_append]
        exact hr
      · exact quiet_chunk_done (by decide) rfl
      · rw [handleInput_eq]
        dsimp only [clearB]
        rw [show (([] : Str) ++ r) = r from rfl, obsAppend_nil_left]
    · rcases vt with _ | ⟨c2, vt2⟩
      · simp only [List.cons_append, List.nil_append, List.cons.injEq] at hw
        obtain ⟨rfl, hr⟩ := hw
        subst hr
        rw [step_chunk_done_buf
          (show ¬ (2 ≤ (['\r'] : Str).length ∧ (['\r'] : Str).take 2 = "\r\n".toList)
            from by decide)
          (show hdrEndSearch ['\r'] = none from by decide)]
        dsimp only
        refine ⟨?_, ?_, ?_⟩
        · dsimp only [clearB]
          unfold Phase
          exact Or.inr (Or.inr (Or.inr (Or.inr (Or.inr (Or.inl ⟨rfl, rfl⟩)))))
        · exact quiet_chunk_done (by decide) (by decide)
        · rw [handleInput_eq]
          dsimp only [clearB]
          rw [obsAppend_nil_left]
      · simp only [List.cons_append, List.cons.injEq, List.append_eq_nil] at hw
        obtain ⟨rfl, rfl, rfl, rfl⟩ := hw
        simp only [List.append_nil]
        rw [step_chunk_done_end
          (show 2 ≤ (['\r', '\n'] : Str).length ∧
            (['\r', '\n'] : Str).take 2 = "\r\n".toList from by decide)]
        rw [show ((['\r', '\n'] : Str).drop 2) = [] from rfl, step_waiting_none (show hdrEndSearch ([] : Str) = none from rfl)]
        dsimp only
        refine ⟨?_, ?_, ?_⟩
        · dsimp only [clearB]
          unfold Phase
          exact Or.inr (Or.inr (Or.inr (Or.inr (Or.inr (Or.inr
            ⟨.dCHUNKED, 0, rfl, rfl⟩)))))
        · exact quiet_waiting rfl
        · rw [handleInput_eq]
          dsimp only [clearB]
          rw [show (([] : Str) ++ []) = [] from rfl, step_waiting_none (show hdrEndSearch ([] : Str) = none from rfl)]
          dsimp only
          rw [obsAppend_nil_right]
  -- ── Case 7: message complete ──
  · obtain ⟨hv0, hr0⟩ := List.append_eq_nil.mp hw
    subst hv0
    subst hr0
    simp only [List.append_nil]
    rw [step_waiting_none (show hdrEndSearch ([] : Str) = none from rfl)]
    dsimp only
    refine ⟨?_, ?_, ?_⟩
    · dsimp only [clearB]
      unfold Phase
      exact Or.inr (Or.inr (Or.inr (Or.inr (Or.inr (Or.inr ⟨d, bl, rfl, rfl⟩)))))
    · exact quiet_waiting rfl
    · rw [handleInput_eq]
      dsimp only [clearB]
      rw [show (([] : Str) ++ []) = [] from rfl, step_waiting_none (show hdrEndSearch ([] : Str) = none from rfl)]
      dsimp only
      rw [obsAppend_nil_left]

/-! ### Folding the split lemma over a fragmentation -/

theorem feed_all (istart : IStart) :
    ∀ (chunks : List Str) (s : PState),
      Phase istart (clearB s) (s.buf ++ chunks.flatten) → Quiet istart s →
      obsOf (feedList istart s chunks).2 =
        obsOf (handleInput istart s chunks.flatten).2 := by
  intro chunks
  induction chunks with
  | nil =>
    intro s hph hq
    show obsOf ([] : List Ev) = _
    exact hq.symm
  | cons c cs ihc =>
    intro s hph hq
    have hsp := hsplit istart (s.buf ++ c).length (s.buf ++ c) cs.flatten (clearB s)
      (le_refl _) (by rw [List.append_assoc]; exact hph)
    obtain ⟨hph2, hq2, hobs⟩ := hsp
    calc obsOf (feedList istart s (c :: cs)).2
        = obsAppend (obsOf (handleInput istart s c).2)
            (obsOf (feedList istart (handleInput istart s c).1 cs).2) := by
          rw [show (feedList istart s (c :: cs)).2 =
            (handleInput istart s c).2 ++
              (feedList istart (handleInput istart s c).1 cs).2 from rfl,
            obsOf_append]
      _ = obsAppend (obsOf (handleInput istart s c).2)
            (obsOf (handleInput istart (handleInput istart s c).1 cs.flatten).2) := by
          rw [ihc (handleInput istart s c).1 hph2 hq2]
      _ = obsOf (handleInput istart s (c :: cs).flatten).2 := by
          rw [show handleInput istart s (c :: cs).flatten =
            hic istart (clearB s) ((s.buf ++ c) ++ cs.flatten) from by
              rw [handleInput_eq, List.append_assoc, List.flatten_cons]]
          exact hobs.symm

/-- **C5.** Fragmentation invariance of `HttpMessageParser._handle_input`:
for every well-formed HTTP message (`MsgWf`: intact header block, an
accepting `_input_start` hook, and a body matching the delimiter the
headers select — NONE, CLOSE, COUNTED or CHUNKED) and every way of
cutting the message bytes into a list of network fragments, feeding the
fragments one `_handle_input` call at a time yields the same observable
callback trace — the `_input_start` calls with their arguments, the
`_input_body` bytes as one concatenated stream, the number of
`_input_end` calls, and the `_input_error` calls — as feeding all the
bytes in a single call.  Byte-by-byte and N-bytes-at-a-time delivery are
the special cases where every fragment has length 1 resp. N. -/
theorem C5_fragmentation_invariance (istart : IStart) (m : Msg)
    (hwf : MsgWf istart m) (chunks : List Str)
    (hchunks : chunks.flatten = msgBytes m) :
    obsOf (feedList istart initPState chunks).2 =
      obsOf (handleInput istart initPState (msgBytes m)).2 := by
  rw [← hchunks]
  apply feed_all
  · rw [hchunks]
    show Phase istart initPState ([] ++ msgBytes m)
    rw [List.nil_append]
    unfold Phase
    exact Or.inl ⟨m, hwf, rfl, rfl⟩
  · show obsOf (handleInput istart initPState ([] : Str)).2 = obsOf []
    rfl

/-- Closed instance of `C5_fragmentation_invariance`: a COUNTED message
with start line `x`, a `Content-Length: 3` header and body `abc`, cut
into three fragments whose boundaries fall inside the header block and
inside the blank-line terminator. -/
theorem C5_fragmentation_invariance_witness :
    obsOf (feedList allowAllStart initPState
        ["x\r\nContent-Le".toList, "ngth: 3\r\n\r".toList, "\nabc".toList]).2 =
      obsOf (handleInput allowAllStart initPState
        (msgBytes ⟨"x".toList, ["Content-Length: 3".toList], "abc".toList⟩)).2 :=
  C5_fragmentation_invariance allowAllStart
    ⟨"x".toList, ["Content-Length: 3".toList], "abc".toList⟩
    ⟨by decide, by decide, by decide,
     show ((("abc".toList).length : Int)) = 3 from by decide⟩
    ["x\r\nContent-Le".toList, "ngth: 3\r\n\r".toList, "\nabc".toList]
    (by decide)

end Nbhttp
